import Mathlib

/-!
Verification of the sorted pretty-assertion crate (`src/lib.rs`).

The crate parses the `Debug` rendering of a value with the external
`darrentsung_debug_parser` crate, sorts the resulting `Value` tree with
`sort_maps`, and pretty-prints the sorted tree.  The `Value` tree type, its
derived total order and its pretty renderer live in the external parser
crate and are modelled here from the specification (§3, §4.1, §4.2); the
code of `src/lib.rs` itself (`sort_maps`, the `SortedDebug` formatting
logic and the sorted-equality comparison) is translated directly.
-/

mutual

/-- Modelled from the spec: the Structural Value Model (§3) of the external
parser crate, a closed tagged union with variants Term, Tuple, List, Struct,
Set and Map, in the order of the table in §3. -/
inductive Value where
  | Term (text : String)
  | Tuple (values : ValueList)
  | List (values : ValueList)
  | Struct (name : String) (values : FieldList)
  | Set (values : ValueList)
  | Map (values : EntryList)

/-- Modelled from the spec: an ordered sequence of child Values (§3). -/
inductive ValueList where
  | nil
  | cons (head : Value) (tail : ValueList)

/-- Modelled from the spec: a Struct body, an "ordered sequence of
(field-label, Value) pairs OR a terminal open-marker entry" (§3). -/
inductive FieldList where
  | nil
  | cons (head : OrNonExhaustive) (tail : FieldList)

/-- Modelled from the spec: one Struct field entry, either a labelled value
or the open-record marker (the `OrNonExhaustive` type matched by
`sort_maps` in `src/lib.rs`). -/
inductive OrNonExhaustive where
  | Value (ident : String) (value : Value)
  | NonExhaustive

/-- Modelled from the spec: a Map body, an "unordered sequence of
(key: Value, value: Value) pairs" (§3). -/
inductive EntryList where
  | nil
  | cons (head : KeyValue) (tail : EntryList)

/-- Modelled from the spec: one Map entry with fields `key` and `value`,
as accessed by `sort_maps` in `src/lib.rs`. -/
inductive KeyValue where
  | mk (key : Value) (value : Value)

end

def KeyValue.key : KeyValue → Value
  | .mk k _ => k

def KeyValue.value : KeyValue → Value
  | .mk _ v => v

/-- Three-way comparison of naturals, written with explicit tests. -/
def cmpNat (a b : Nat) : Ordering :=
  if a < b then .lt else if a = b then .eq else .gt

/-- Comparison of two characters by code point, the character-wise step of
the byte/character-lexicographic comparison of rendered tokens (§4.1). -/
def cmpChar (a b : Char) : Ordering := cmpNat a.val.toNat b.val.toNat

/-- Lexicographic comparison of character sequences; a strict prefix sorts
first (§4.1 "shorter-with-all-equal-prefix sorts first"). -/
def cmpCharList : List Char → List Char → Ordering
  | [], [] => .eq
  | [], _ :: _ => .lt
  | _ :: _, [] => .gt
  | a :: as, b :: bs => (cmpChar a b).then (cmpCharList as bs)

/-- Modelled from the spec: Term values "compare by their literal text
(lexicographic byte/character comparison of the rendered token)" (§4.1). -/
def cmpStr (a b : String) : Ordering := cmpCharList a.data b.data

/-- Rank of a Value variant, in the declaration order of the variant table
in §3; a derived structural order compares variant ranks first. -/
def Value.rank : Value → Nat
  | .Term _ => 0
  | .Tuple _ => 1
  | .List _ => 2
  | .Struct _ _ => 3
  | .Set _ => 4
  | .Map _ => 5

mutual

/-- Modelled from the spec: the "structural total order defined recursively
over the Value union itself" (§4.1), i.e. the derived `Ord` of the external
parser's `Value`: variants compare by declaration rank, Terms by literal
text, sequences element-by-element with shorter-prefix-first, Structs by
name then field list, Map entries by key then value. -/
def Value.cmp : Value → Value → Ordering
  | .Term a, .Term b => cmpStr a b
  | .Tuple a, .Tuple b => ValueList.cmp a b
  | .List a, .List b => ValueList.cmp a b
  | .Struct na fa, .Struct nb fb => (cmpStr na nb).then (FieldList.cmp fa fb)
  | .Set a, .Set b => ValueList.cmp a b
  | .Map a, .Map b => EntryList.cmp a b
  | a, b => cmpNat a.rank b.rank
  termination_by structural v => v

/-- Modelled from the spec: element-by-element sequence comparison (§4.1). -/
def ValueList.cmp : ValueList → ValueList → Ordering
  | .nil, .nil => .eq
  | .nil, .cons _ _ => .lt
  | .cons _ _, .nil => .gt
  | .cons a as, .cons b bs => (Value.cmp a b).then (ValueList.cmp as bs)
  termination_by structural v => v

/-- Modelled from the spec: element-by-element comparison of Struct field
sequences (§4.1 sequence ordering applied to field entries). -/
def FieldList.cmp : FieldList → FieldList → Ordering
  | .nil, .nil => .eq
  | .nil, .cons _ _ => .lt
  | .cons _ _, .nil => .gt
  | .cons a as, .cons b bs => (OrNonExhaustive.cmp a b).then (FieldList.cmp as bs)
  termination_by structural v => v

/-- Modelled from the spec: comparison of Struct field entries; a labelled
entry compares by label then value, and sorts before the open marker. -/
def OrNonExhaustive.cmp : OrNonExhaustive → OrNonExhaustive → Ordering
  | .Value ia va, .Value ib vb => (cmpStr ia ib).then (Value.cmp va vb)
  | .Value _ _, .NonExhaustive => .lt
  | .NonExhaustive, .Value _ _ => .gt
  | .NonExhaustive, .NonExhaustive => .eq
  termination_by structural v => v

/-- Modelled from the spec: element-by-element comparison of Map entry
sequences (§4.1 sequence ordering applied to entries). -/
def EntryList.cmp : EntryList → EntryList → Ordering
  | .nil, .nil => .eq
  | .nil, .cons _ _ => .lt
  | .cons _ _, .nil => .gt
  | .cons a as, .cons b bs => (KeyValue.cmp a b).then (EntryList.cmp as bs)
  termination_by structural v => v

/-- Modelled from the spec: a Map entry compares by key first, then by
value (the derived order of the entry pair). -/
def KeyValue.cmp : KeyValue → KeyValue → Ordering
  | .mk ka va, .mk kb vb => (Value.cmp ka kb).then (Value.cmp va vb)
  termination_by structural v => v

end

/-- Stable insertion of an element into a list, the insertion step of the
stable comparison sort; models the placement discipline of Rust's stable
`sort_by`: `a` is inserted before the first element it does not compare
greater than. -/
def ValueList.orderedInsertBy (c : Value → Value → Ordering) (a : Value) :
    ValueList → ValueList
  | .nil => .cons a .nil
  | .cons b l =>
    if c a b = .gt then .cons b (ValueList.orderedInsertBy c a l)
    else .cons a (.cons b l)

/-- Model of Rust's stable `Vec::sort_by` on a Value sequence: a stable
sort placing the elements in non-decreasing comparator order.  A stable
sort's output is unique, so stable insertion sort is a faithful model. -/
def ValueList.sort_by (c : Value → Value → Ordering) : ValueList → ValueList
  | .nil => .nil
  | .cons a l => ValueList.orderedInsertBy c a (ValueList.sort_by c l)

/-- Stable insertion of a Map entry, as `ValueList.orderedInsertBy`. -/
def EntryList.orderedInsertBy (c : KeyValue → KeyValue → Ordering) (a : KeyValue) :
    EntryList → EntryList
  | .nil => .cons a .nil
  | .cons b l =>
    if c a b = .gt then .cons b (EntryList.orderedInsertBy c a l)
    else .cons a (.cons b l)

/-- Model of Rust's stable `Vec::sort_by` on a Map entry sequence. -/
def EntryList.sort_by (c : KeyValue → KeyValue → Ordering) : EntryList → EntryList
  | .nil => .nil
  | .cons a l => EntryList.orderedInsertBy c a (EntryList.sort_by c l)

theorem sizeOf_orderedInsertByV (c : Value → Value → Ordering) (a : Value) :
    ∀ l : ValueList, sizeOf (ValueList.orderedInsertBy c a l) = 1 + sizeOf a + sizeOf l
  | .nil => by simp [ValueList.orderedInsertBy]
  | .cons b l => by
    by_cases h : c a b = .gt
    · simp [ValueList.orderedInsertBy, h, sizeOf_orderedInsertByV c a l]
      omega
    · simp [ValueList.orderedInsertBy, h]

theorem sizeOf_sort_byV (c : Value → Value → Ordering) :
    ∀ l : ValueList, sizeOf (ValueList.sort_by c l) = sizeOf l
  | .nil => rfl
  | .cons a l => by
    simp [ValueList.sort_by, sizeOf_orderedInsertByV,
      sizeOf_sort_byV c l]

theorem sizeOf_orderedInsertByE (c : KeyValue → KeyValue → Ordering) (a : KeyValue) :
    ∀ l : EntryList, sizeOf (EntryList.orderedInsertBy c a l) = 1 + sizeOf a + sizeOf l
  | .nil => by simp [EntryList.orderedInsertBy]
  | .cons b l => by
    by_cases h : c a b = .gt
    · simp [EntryList.orderedInsertBy, h, sizeOf_orderedInsertByE c a l]
      omega
    · simp [EntryList.orderedInsertBy, h]

theorem sizeOf_sort_byE (c : KeyValue → KeyValue → Ordering) :
    ∀ l : EntryList, sizeOf (EntryList.sort_by c l) = sizeOf l
  | .nil => rfl
  | .cons a l => by
    simp [EntryList.sort_by, sizeOf_orderedInsertByE,
      sizeOf_sort_byE c l]

mutual

/-- Translation of `sort_maps` from `src/lib.rs` (lines 128-169): Struct
recurses into labelled field values and skips the open marker; Set, List
and Tuple sort their elements with `Value::cmp` and then recurse into each
element; Map sorts its entries comparing keys only and then recurses into
each entry's key and value; Term is terminal. -/
def sort_maps : Value → Value
  | .Term t => .Term t
  | .Struct name values => .Struct name (sortMapsFields values)
  | .Set values => .Set (sortMapsEach (values.sort_by Value.cmp))
  | .Map values =>
      .Map (sortMapsEntries (values.sort_by fun a b => a.key.cmp b.key))
  | .List values => .List (sortMapsEach (values.sort_by Value.cmp))
  | .Tuple values => .Tuple (sortMapsEach (values.sort_by Value.cmp))
  termination_by v => sizeOf v
  decreasing_by
    all_goals simp [sizeOf_sort_byV, sizeOf_sort_byE]

/-- The Struct loop of `sort_maps`: recurse into each labelled field value,
leave the open marker and the field order untouched. -/
def sortMapsFields : FieldList → FieldList
  | .nil => .nil
  | .cons (.Value ident value) l =>
      .cons (.Value ident (sort_maps value)) (sortMapsFields l)
  | .cons .NonExhaustive l => .cons .NonExhaustive (sortMapsFields l)
  termination_by l => sizeOf l
  decreasing_by
    all_goals simp
    all_goals omega

/-- The Set/List/Tuple loop of `sort_maps`: recurse into each element of
the already-sorted sequence. -/
def sortMapsEach : ValueList → ValueList
  | .nil => .nil
  | .cons v l => .cons (sort_maps v) (sortMapsEach l)
  termination_by l => sizeOf l
  decreasing_by
    all_goals simp
    all_goals omega

/-- The Map loop of `sort_maps`: recurse into each entry's key and value of
the already-sorted entry sequence. -/
def sortMapsEntries : EntryList → EntryList
  | .nil => .nil
  | .cons (.mk k v) l => .cons (.mk (sort_maps k) (sort_maps v)) (sortMapsEntries l)
  termination_by l => sizeOf l
  decreasing_by
    all_goals simp
    all_goals omega

end

theorem cmpNat_swap (a b : Nat) : (cmpNat a b).swap = cmpNat b a := by
  unfold cmpNat
  split_ifs <;> first | rfl | omega

theorem cmpNat_eq_iff (a b : Nat) : cmpNat a b = .eq ↔ a = b := by
  unfold cmpNat
  split_ifs <;> simp <;> omega

theorem cmpNat_lt_iff (a b : Nat) : cmpNat a b = .lt ↔ a < b := by
  unfold cmpNat
  split_ifs <;> simp <;> omega

theorem cmpNat_gt_iff (a b : Nat) : cmpNat a b = .gt ↔ b < a := by
  unfold cmpNat
  split_ifs <;> simp <;> omega

theorem cmpChar_swap (a b : Char) : (cmpChar a b).swap = cmpChar b a :=
  cmpNat_swap _ _

theorem cmpChar_eq_iff (a b : Char) : cmpChar a b = .eq ↔ a = b := by
  unfold cmpChar
  rw [cmpNat_eq_iff]
  exact ⟨fun h => Char.ext (UInt32.ext h), fun h => by rw [h]⟩

theorem cmpChar_lt_trans {a b c : Char} (h₁ : cmpChar a b = .lt)
    (h₂ : cmpChar b c = .lt) : cmpChar a c = .lt := by
  unfold cmpChar at *
  rw [cmpNat_lt_iff] at *
  omega

theorem cmpCharList_swap : ∀ (a b : List Char), (cmpCharList a b).swap = cmpCharList b a
  | [], [] => rfl
  | [], _ :: _ => rfl
  | _ :: _, [] => rfl
  | a :: as, b :: bs => by
    simp only [cmpCharList, Ordering.swap_then, cmpChar_swap, cmpCharList_swap as bs]

theorem cmpCharList_eq_iff : ∀ (a b : List Char), cmpCharList a b = .eq ↔ a = b
  | [], [] => by simp [cmpCharList]
  | [], _ :: _ => by simp [cmpCharList]
  | _ :: _, [] => by simp [cmpCharList]
  | a :: as, b :: bs => by
    simp [cmpCharList, Ordering.then_eq_eq, cmpChar_eq_iff, cmpCharList_eq_iff as bs]

theorem cmpCharList_lt_trans : ∀ (a b c : List Char), cmpCharList a b = .lt →
    cmpCharList b c = .lt → cmpCharList a c = .lt
  | [], b, [] => by
    intro _ h₂
    cases b <;> simp [cmpCharList] at h₂
  | [], _, _ :: _ => by
    intro _ _
    rfl
  | _ :: _, b, [] => by
    intro _ h₂
    cases b <;> simp [cmpCharList] at h₂
  | _ :: _, [], _ :: _ => by
    intro h₁ _
    simp [cmpCharList] at h₁
  | a :: as, b :: bs, c :: cs => by
    intro h₁ h₂
    simp only [cmpCharList] at h₁ h₂ ⊢
    rcases Ordering.then_eq_lt.1 h₁ with hl | ⟨he, hl⟩
    · rcases Ordering.then_eq_lt.1 h₂ with hl₂ | ⟨he₂, hl₂⟩
      · exact Ordering.then_eq_lt.2 (Or.inl (cmpChar_lt_trans hl hl₂))
      · obtain rfl := (cmpChar_eq_iff b c).1 he₂
        exact Ordering.then_eq_lt.2 (Or.inl hl)
    · obtain rfl := (cmpChar_eq_iff a b).1 he
      rcases Ordering.then_eq_lt.1 h₂ with hl₂ | ⟨he₂, hl₂⟩
      · exact Ordering.then_eq_lt.2 (Or.inl hl₂)
      · obtain rfl := (cmpChar_eq_iff a c).1 he₂
        exact Ordering.then_eq_lt.2
          (Or.inr ⟨(cmpChar_eq_iff a a).2 rfl, cmpCharList_lt_trans as bs cs hl hl₂⟩)

theorem cmpStr_swap (a b : String) : (cmpStr a b).swap = cmpStr b a :=
  cmpCharList_swap _ _

theorem cmpStr_eq_iff (a b : String) : cmpStr a b = .eq ↔ a = b := by
  unfold cmpStr
  rw [cmpCharList_eq_iff]
  exact ⟨fun h => String.ext h, fun h => by rw [h]⟩

theorem cmpStr_lt_trans {a b c : String} (h₁ : cmpStr a b = .lt)
    (h₂ : cmpStr b c = .lt) : cmpStr a c = .lt :=
  cmpCharList_lt_trans _ _ _ h₁ h₂

theorem eq_term_of_rank (b : Value) (h : b.rank = 0) : ∃ t, b = .Term t := by
  cases b <;> first | exact ⟨_, rfl⟩ | simp [Value.rank] at h

theorem eq_tuple_of_rank (b : Value) (h : b.rank = 1) : ∃ l, b = .Tuple l := by
  cases b <;> first | exact ⟨_, rfl⟩ | simp [Value.rank] at h

theorem eq_list_of_rank (b : Value) (h : b.rank = 2) : ∃ l, b = .List l := by
  cases b <;> first | exact ⟨_, rfl⟩ | simp [Value.rank] at h

theorem eq_struct_of_rank (b : Value) (h : b.rank = 3) : ∃ n f, b = .Struct n f := by
  cases b <;> first | exact ⟨_, _, rfl⟩ | simp [Value.rank] at h

theorem eq_set_of_rank (b : Value) (h : b.rank = 4) : ∃ l, b = .Set l := by
  cases b <;> first | exact ⟨_, rfl⟩ | simp [Value.rank] at h

theorem eq_map_of_rank (b : Value) (h : b.rank = 5) : ∃ l, b = .Map l := by
  cases b <;> first | exact ⟨_, rfl⟩ | simp [Value.rank] at h

theorem valueCmp_of_rank_ne (a b : Value) (h : a.rank ≠ b.rank) :
    Value.cmp a b = cmpNat a.rank b.rank := by
  cases a <;> cases b <;> first | rfl | exact absurd rfl h

mutual

theorem valueCmp_swap : ∀ (a b : Value), (Value.cmp a b).swap = Value.cmp b a
  | a, b => by
    by_cases h : a.rank = b.rank
    · cases a with
      | Term t =>
        obtain ⟨u, rfl⟩ := eq_term_of_rank b h.symm
        simp only [Value.cmp]
        exact cmpStr_swap t u
      | Tuple l =>
        obtain ⟨m, rfl⟩ := eq_tuple_of_rank b h.symm
        simp only [Value.cmp]
        exact valueListCmp_swap l m
      | List l =>
        obtain ⟨m, rfl⟩ := eq_list_of_rank b h.symm
        simp only [Value.cmp]
        exact valueListCmp_swap l m
      | Struct n f =>
        obtain ⟨n₂, f₂, rfl⟩ := eq_struct_of_rank b h.symm
        simp only [Value.cmp]
        rw [Ordering.swap_then, cmpStr_swap, fieldListCmp_swap f f₂]
      | Set l =>
        obtain ⟨m, rfl⟩ := eq_set_of_rank b h.symm
        simp only [Value.cmp]
        exact valueListCmp_swap l m
      | Map l =>
        obtain ⟨m, rfl⟩ := eq_map_of_rank b h.symm
        simp only [Value.cmp]
        exact entryListCmp_swap l m
    · rw [valueCmp_of_rank_ne a b h, valueCmp_of_rank_ne b a (Ne.symm h), cmpNat_swap]
  termination_by a => sizeOf a

theorem valueListCmp_swap : ∀ (a b : ValueList), (ValueList.cmp a b).swap = ValueList.cmp b a
  | .nil, .nil => rfl
  | .nil, .cons _ _ => rfl
  | .cons _ _, .nil => rfl
  | .cons a as, .cons b bs => by
    simp only [ValueList.cmp, Ordering.swap_then, valueCmp_swap a b, valueListCmp_swap as bs]
  termination_by a => sizeOf a

theorem fieldListCmp_swap : ∀ (a b : FieldList), (FieldList.cmp a b).swap = FieldList.cmp b a
  | .nil, .nil => rfl
  | .nil, .cons _ _ => rfl
  | .cons _ _, .nil => rfl
  | .cons a as, .cons b bs => by
    simp only [FieldList.cmp, Ordering.swap_then, orNonExhaustiveCmp_swap a b,
      fieldListCmp_swap as bs]
  termination_by a => sizeOf a

theorem orNonExhaustiveCmp_swap :
    ∀ (a b : OrNonExhaustive), (OrNonExhaustive.cmp a b).swap = OrNonExhaustive.cmp b a
  | .Value i v, .Value j w => by
    simp only [OrNonExhaustive.cmp, Ordering.swap_then, cmpStr_swap, valueCmp_swap v w]
  | .Value _ _, .NonExhaustive => rfl
  | .NonExhaustive, .Value _ _ => rfl
  | .NonExhaustive, .NonExhaustive => rfl
  termination_by a => sizeOf a

theorem entryListCmp_swap : ∀ (a b : EntryList), (EntryList.cmp a b).swap = EntryList.cmp b a
  | .nil, .nil => rfl
  | .nil, .cons _ _ => rfl
  | .cons _ _, .nil => rfl
  | .cons a as, .cons b bs => by
    simp only [EntryList.cmp, Ordering.swap_then, keyValueCmp_swap a b, entryListCmp_swap as bs]
  termination_by a => sizeOf a

theorem keyValueCmp_swap : ∀ (a b : KeyValue), (KeyValue.cmp a b).swap = KeyValue.cmp b a
  | .mk ka va, .mk kb vb => by
    simp only [KeyValue.cmp, Ordering.swap_then, valueCmp_swap ka kb, valueCmp_swap va vb]
  termination_by a => sizeOf a

end

mutual

theorem valueCmp_eq_iff : ∀ (a b : Value), Value.cmp a b = .eq ↔ a = b
  | a, b => by
    by_cases h : a.rank = b.rank
    · cases a with
      | Term t =>
        obtain ⟨u, rfl⟩ := eq_term_of_rank b h.symm
        simp only [Value.cmp, cmpStr_eq_iff, Value.Term.injEq]
      | Tuple l =>
        obtain ⟨m, rfl⟩ := eq_tuple_of_rank b h.symm
        simp only [Value.cmp, valueListCmp_eq_iff l m, Value.Tuple.injEq]
      | List l =>
        obtain ⟨m, rfl⟩ := eq_list_of_rank b h.symm
        simp only [Value.cmp, valueListCmp_eq_iff l m, Value.List.injEq]
      | Struct n f =>
        obtain ⟨n₂, f₂, rfl⟩ := eq_struct_of_rank b h.symm
        simp only [Value.cmp, Ordering.then_eq_eq, cmpStr_eq_iff,
          fieldListCmp_eq_iff f f₂, Value.Struct.injEq]
      | Set l =>
        obtain ⟨m, rfl⟩ := eq_set_of_rank b h.symm
        simp only [Value.cmp, valueListCmp_eq_iff l m, Value.Set.injEq]
      | Map l =>
        obtain ⟨m, rfl⟩ := eq_map_of_rank b h.symm
        simp only [Value.cmp, entryListCmp_eq_iff l m, Value.Map.injEq]
    · rw [valueCmp_of_rank_ne a b h]
      constructor
      · intro hh
        exact absurd ((cmpNat_eq_iff _ _).1 hh) h
      · intro hh
        subst hh
        exact absurd rfl h
  termination_by a => sizeOf a

theorem valueListCmp_eq_iff : ∀ (a b : ValueList), ValueList.cmp a b = .eq ↔ a = b
  | .nil, .nil => by simp [ValueList.cmp]
  | .nil, .cons _ _ => by simp [ValueList.cmp]
  | .cons _ _, .nil => by simp [ValueList.cmp]
  | .cons a as, .cons b bs => by
    simp [ValueList.cmp, Ordering.then_eq_eq, valueCmp_eq_iff a b, valueListCmp_eq_iff as bs]
  termination_by a => sizeOf a

theorem fieldListCmp_eq_iff : ∀ (a b : FieldList), FieldList.cmp a b = .eq ↔ a = b
  | .nil, .nil => by simp [FieldList.cmp]
  | .nil, .cons _ _ => by simp [FieldList.cmp]
  | .cons _ _, .nil => by simp [FieldList.cmp]
  | .cons a as, .cons b bs => by
    simp [FieldList.cmp, Ordering.then_eq_eq, orNonExhaustiveCmp_eq_iff a b,
      fieldListCmp_eq_iff as bs]
  termination_by a => sizeOf a

theorem orNonExhaustiveCmp_eq_iff :
    ∀ (a b : OrNonExhaustive), OrNonExhaustive.cmp a b = .eq ↔ a = b
  | .Value i v, .Value j w => by
    simp [OrNonExhaustive.cmp, Ordering.then_eq_eq, cmpStr_eq_iff, valueCmp_eq_iff v w]
  | .Value _ _, .NonExhaustive => by simp [OrNonExhaustive.cmp]
  | .NonExhaustive, .Value _ _ => by simp [OrNonExhaustive.cmp]
  | .NonExhaustive, .NonExhaustive => by simp [OrNonExhaustive.cmp]
  termination_by a => sizeOf a

theorem entryListCmp_eq_iff : ∀ (a b : EntryList), EntryList.cmp a b = .eq ↔ a = b
  | .nil, .nil => by simp [EntryList.cmp]
  | .nil, .cons _ _ => by simp [EntryList.cmp]
  | .cons _ _, .nil => by simp [EntryList.cmp]
  | .cons a as, .cons b bs => by
    simp [EntryList.cmp, Ordering.then_eq_eq, keyValueCmp_eq_iff a b, entryListCmp_eq_iff as bs]
  termination_by a => sizeOf a

theorem keyValueCmp_eq_iff : ∀ (a b : KeyValue), KeyValue.cmp a b = .eq ↔ a = b
  | .mk ka va, .mk kb vb => by
    simp [KeyValue.cmp, Ordering.then_eq_eq, valueCmp_eq_iff ka kb, valueCmp_eq_iff va vb]
  termination_by a => sizeOf a

end

mutual

theorem valueCmp_lt_trans : ∀ (a b c : Value), Value.cmp a b = .lt → Value.cmp b c = .lt →
    Value.cmp a c = .lt
  | a, b, c => by
    intro h₁ h₂
    have hab : a.rank ≤ b.rank := by
      by_cases h : a.rank = b.rank
      · omega
      · rw [valueCmp_of_rank_ne a b h] at h₁
        have := (cmpNat_lt_iff _ _).1 h₁
        omega
    have hbc : b.rank ≤ c.rank := by
      by_cases h : b.rank = c.rank
      · omega
      · rw [valueCmp_of_rank_ne b c h] at h₂
        have := (cmpNat_lt_iff _ _).1 h₂
        omega
    by_cases hac : a.rank = c.rank
    · have h1 : a.rank = b.rank := by omega
      cases a with
      | Term t =>
        obtain ⟨u, rfl⟩ := eq_term_of_rank b h1.symm
        obtain ⟨w, rfl⟩ := eq_term_of_rank c hac.symm
        simp only [Value.cmp] at h₁ h₂ ⊢
        exact cmpStr_lt_trans h₁ h₂
      | Tuple l =>
        obtain ⟨m, rfl⟩ := eq_tuple_of_rank b h1.symm
        obtain ⟨k, rfl⟩ := eq_tuple_of_rank c hac.symm
        simp only [Value.cmp] at h₁ h₂ ⊢
        exact valueListCmp_lt_trans l m k h₁ h₂
      | List l =>
        obtain ⟨m, rfl⟩ := eq_list_of_rank b h1.symm
        obtain ⟨k, rfl⟩ := eq_list_of_rank c hac.symm
        simp only [Value.cmp] at h₁ h₂ ⊢
        exact valueListCmp_lt_trans l m k h₁ h₂
      | Struct n f =>
        obtain ⟨n₂, f₂, rfl⟩ := eq_struct_of_rank b h1.symm
        obtain ⟨n₃, f₃, rfl⟩ := eq_struct_of_rank c hac.symm
        simp only [Value.cmp] at h₁ h₂ ⊢
        rcases Ordering.then_eq_lt.1 h₁ with hl | ⟨he, hl⟩
        · rcases Ordering.then_eq_lt.1 h₂ with hl₂ | ⟨he₂, hl₂⟩
          · exact Ordering.then_eq_lt.2 (Or.inl (cmpStr_lt_trans hl hl₂))
          · obtain rfl := (cmpStr_eq_iff _ _).1 he₂
            exact Ordering.then_eq_lt.2 (Or.inl hl)
        · obtain rfl := (cmpStr_eq_iff _ _).1 he
          rcases Ordering.then_eq_lt.1 h₂ with hl₂ | ⟨he₂, hl₂⟩
          · exact Ordering.then_eq_lt.2 (Or.inl hl₂)
          · obtain rfl := (cmpStr_eq_iff _ _).1 he₂
            exact Ordering.then_eq_lt.2
              (Or.inr ⟨(cmpStr_eq_iff _ _).2 rfl, fieldListCmp_lt_trans f f₂ f₃ hl hl₂⟩)
      | Set l =>
        obtain ⟨m, rfl⟩ := eq_set_of_rank b h1.symm
        obtain ⟨k, rfl⟩ := eq_set_of_rank c hac.symm
        simp only [Value.cmp] at h₁ h₂ ⊢
        exact valueListCmp_lt_trans l m k h₁ h₂
      | Map l =>
        obtain ⟨m, rfl⟩ := eq_map_of_rank b h1.symm
        obtain ⟨k, rfl⟩ := eq_map_of_rank c hac.symm
        simp only [Value.cmp] at h₁ h₂ ⊢
        exact entryListCmp_lt_trans l m k h₁ h₂
    · rw [valueCmp_of_rank_ne a c hac, cmpNat_lt_iff]
      omega
  termination_by a => sizeOf a

theorem valueListCmp_lt_trans : ∀ (a b c : ValueList), ValueList.cmp a b = .lt →
    ValueList.cmp b c = .lt → ValueList.cmp a c = .lt
  | .nil, b, .nil => by
    intro _ h₂
    cases b <;> simp [ValueList.cmp] at h₂
  | .nil, _, .cons _ _ => by
    intro _ _
    rfl
  | .cons _ _, b, .nil => by
    intro _ h₂
    cases b <;> simp [ValueList.cmp] at h₂
  | .cons _ _, .nil, .cons _ _ => by
    intro h₁ _
    simp [ValueList.cmp] at h₁
  | .cons a as, .cons b bs, .cons c cs => by
    intro h₁ h₂
    simp only [ValueList.cmp] at h₁ h₂ ⊢
    rcases Ordering.then_eq_lt.1 h₁ with hl | ⟨he, hl⟩
    · rcases Ordering.then_eq_lt.1 h₂ with hl₂ | ⟨he₂, hl₂⟩
      · exact Ordering.then_eq_lt.2 (Or.inl (valueCmp_lt_trans a b c hl hl₂))
      · obtain rfl := (valueCmp_eq_iff b c).1 he₂
        exact Ordering.then_eq_lt.2 (Or.inl hl)
    · obtain rfl := (valueCmp_eq_iff a b).1 he
      rcases Ordering.then_eq_lt.1 h₂ with hl₂ | ⟨he₂, hl₂⟩
      · exact Ordering.then_eq_lt.2 (Or.inl hl₂)
      · obtain rfl := (valueCmp_eq_iff a c).1 he₂
        exact Ordering.then_eq_lt.2
          (Or.inr ⟨(valueCmp_eq_iff a a).2 rfl, valueListCmp_lt_trans as bs cs hl hl₂⟩)
  termination_by a => sizeOf a

theorem fieldListCmp_lt_trans : ∀ (a b c : FieldList), FieldList.cmp a b = .lt →
    FieldList.cmp b c = .lt → FieldList.cmp a c = .lt
  | .nil, b, .nil => by
    intro _ h₂
    cases b <;> simp [FieldList.cmp] at h₂
  | .nil, _, .cons _ _ => by
    intro _ _
    rfl
  | .cons _ _, b, .nil => by
    intro _ h₂
    cases b <;> simp [FieldList.cmp] at h₂
  | .cons _ _, .nil, .cons _ _ => by
    intro h₁ _
    simp [FieldList.cmp] at h₁
  | .cons a as, .cons b bs, .cons c cs => by
    intro h₁ h₂
    simp only [FieldList.cmp] at h₁ h₂ ⊢
    rcases Ordering.then_eq_lt.1 h₁ with hl | ⟨he, hl⟩
    · rcases Ordering.then_eq_lt.1 h₂ with hl₂ | ⟨he₂, hl₂⟩
      · exact Ordering.then_eq_lt.2 (Or.inl (orNonExhaustiveCmp_lt_trans a b c hl hl₂))
      · obtain rfl := (orNonExhaustiveCmp_eq_iff b c).1 he₂
        exact Ordering.then_eq_lt.2 (Or.inl hl)
    · obtain rfl := (orNonExhaustiveCmp_eq_iff a b).1 he
      rcases Ordering.then_eq_lt.1 h₂ with hl₂ | ⟨he₂, hl₂⟩
      · exact Ordering.then_eq_lt.2 (Or.inl hl₂)
      · obtain rfl := (orNonExhaustiveCmp_eq_iff a c).1 he₂
        exact Ordering.then_eq_lt.2
          (Or.inr ⟨(orNonExhaustiveCmp_eq_iff a a).2 rfl, fieldListCmp_lt_trans as bs cs hl hl₂⟩)
  termination_by a => sizeOf a

theorem orNonExhaustiveCmp_lt_trans : ∀ (a b c : OrNonExhaustive),
    OrNonExhaustive.cmp a b = .lt → OrNonExhaustive.cmp b c = .lt →
    OrNonExhaustive.cmp a c = .lt
  | .Value i v, .Value j w, .Value k x => by
    intro h₁ h₂
    simp only [OrNonExhaustive.cmp] at h₁ h₂ ⊢
    rcases Ordering.then_eq_lt.1 h₁ with hl | ⟨he, hl⟩
    · rcases Ordering.then_eq_lt.1 h₂ with hl₂ | ⟨he₂, hl₂⟩
      · exact Ordering.then_eq_lt.2 (Or.inl (cmpStr_lt_trans hl hl₂))
      · obtain rfl := (cmpStr_eq_iff _ _).1 he₂
        exact Ordering.then_eq_lt.2 (Or.inl hl)
    · obtain rfl := (cmpStr_eq_iff _ _).1 he
      rcases Ordering.then_eq_lt.1 h₂ with hl₂ | ⟨he₂, hl₂⟩
      · exact Ordering.then_eq_lt.2 (Or.inl hl₂)
      · obtain rfl := (cmpStr_eq_iff _ _).1 he₂
        exact Ordering.then_eq_lt.2
          (Or.inr ⟨(cmpStr_eq_iff _ _).2 rfl, valueCmp_lt_trans v w x hl hl₂⟩)
  | .Value _ _, .Value _ _, .NonExhaustive => by
    intro _ _
    rfl
  | .Value _ _, .NonExhaustive, c => by
    intro _ h₂
    cases c <;> simp [OrNonExhaustive.cmp] at h₂
  | .NonExhaustive, b, _ => by
    intro h₁ _
    cases b <;> simp [OrNonExhaustive.cmp] at h₁
  termination_by a => sizeOf a

theorem entryListCmp_lt_trans : ∀ (a b c : EntryList), EntryList.cmp a b = .lt →
    EntryList.cmp b c = .lt → EntryList.cmp a c = .lt
  | .nil, b, .nil => by
    intro _ h₂
    cases b <;> simp [EntryList.cmp] at h₂
  | .nil, _, .cons _ _ => by
    intro _ _
    rfl
  | .cons _ _, b, .nil => by
    intro _ h₂
    cases b <;> simp [EntryList.cmp] at h₂
  | .cons _ _, .nil, .cons _ _ => by
    intro h₁ _
    simp [EntryList.cmp] at h₁
  | .cons a as, .cons b bs, .cons c cs => by
    intro h₁ h₂
    simp only [EntryList.cmp] at h₁ h₂ ⊢
    rcases Ordering.then_eq_lt.1 h₁ with hl | ⟨he, hl⟩
    · rcases Ordering.then_eq_lt.1 h₂ with hl₂ | ⟨he₂, hl₂⟩
      · exact Ordering.then_eq_lt.2 (Or.inl (keyValueCmp_lt_trans a b c hl hl₂))
      · obtain rfl := (keyValueCmp_eq_iff b c).1 he₂
        exact Ordering.then_eq_lt.2 (Or.inl hl)
    · obtain rfl := (keyValueCmp_eq_iff a b).1 he
      rcases Ordering.then_eq_lt.1 h₂ with hl₂ | ⟨he₂, hl₂⟩
      · exact Ordering.then_eq_lt.2 (Or.inl hl₂)
      · obtain rfl := (keyValueCmp_eq_iff a c).1 he₂
        exact Ordering.then_eq_lt.2
          (Or.inr ⟨(keyValueCmp_eq_iff a a).2 rfl, entryListCmp_lt_trans as bs cs hl hl₂⟩)
  termination_by a => sizeOf a

theorem keyValueCmp_lt_trans : ∀ (a b c : KeyValue), KeyValue.cmp a b = .lt →
    KeyValue.cmp b c = .lt → KeyValue.cmp a c = .lt
  | .mk ka va, .mk kb vb, .mk kc vc => by
    intro h₁ h₂
    simp only [KeyValue.cmp] at h₁ h₂ ⊢
    rcases Ordering.then_eq_lt.1 h₁ with hl | ⟨he, hl⟩
    · rcases Ordering.then_eq_lt.1 h₂ with hl₂ | ⟨he₂, hl₂⟩
      · exact Ordering.then_eq_lt.2 (Or.inl (valueCmp_lt_trans ka kb kc hl hl₂))
      · obtain rfl := (valueCmp_eq_iff kb kc).1 he₂
        exact Ordering.then_eq_lt.2 (Or.inl hl)
    · obtain rfl := (valueCmp_eq_iff ka kb).1 he
      rcases Ordering.then_eq_lt.1 h₂ with hl₂ | ⟨he₂, hl₂⟩
      · exact Ordering.then_eq_lt.2 (Or.inl hl₂)
      · obtain rfl := (valueCmp_eq_iff ka kc).1 he₂
        exact Ordering.then_eq_lt.2
          (Or.inr ⟨(valueCmp_eq_iff ka ka).2 rfl, valueCmp_lt_trans va vb vc hl hl₂⟩)
  termination_by a => sizeOf a

end

/-- Non-strict order induced by a three-way comparator: `a` does not
compare greater than `b`.  Rust's `sort_by` sorts into non-decreasing
order with respect to this relation. -/
def leOfCmp (c : Value → Value → Ordering) (a b : Value) : Prop := c a b ≠ .gt

/-- Same as `leOfCmp`, for Map entry comparators. -/
def leOfCmpE (c : KeyValue → KeyValue → Ordering) (a b : KeyValue) : Prop := c a b ≠ .gt

instance (c : Value → Value → Ordering) : DecidableRel (leOfCmp c) := fun _ _ => by
  unfold leOfCmp
  infer_instance

instance (c : KeyValue → KeyValue → Ordering) : DecidableRel (leOfCmpE c) := fun _ _ => by
  unfold leOfCmpE
  infer_instance

/-- The structural order on Values. -/
def Value.le : Value → Value → Prop := leOfCmp Value.cmp

/-- The key-only order on Map entries used by the Map branch of
`sort_maps` (`a.key.cmp(&b.key)` in `src/lib.rs`). -/
def KeyValue.keyLe : KeyValue → KeyValue → Prop :=
  leOfCmpE fun a b => a.key.cmp b.key

instance : DecidableRel Value.le := fun a b => by
  unfold Value.le
  infer_instance

instance : DecidableRel KeyValue.keyLe := fun a b => by
  unfold KeyValue.keyLe
  infer_instance

theorem valueCmp_gt_iff_lt (a b : Value) : Value.cmp a b = .gt ↔ Value.cmp b a = .lt := by
  constructor
  · intro h
    have := valueCmp_swap a b
    rw [h] at this
    exact this.symm
  · intro h
    have hs := valueCmp_swap b a
    rw [h] at hs
    exact hs.symm

theorem valueLe_total (a b : Value) : Value.le a b ∨ Value.le b a := by
  unfold Value.le leOfCmp
  by_cases h : Value.cmp a b = .gt
  · right
    rw [valueCmp_gt_iff_lt] at h
    simp [h]
  · exact Or.inl h

theorem valueLe_trans {a b c : Value} (h₁ : Value.le a b) (h₂ : Value.le b c) :
    Value.le a c := by
  unfold Value.le leOfCmp at *
  rcases ho : Value.cmp a b with _ | _ | _
  · rcases ho₂ : Value.cmp b c with _ | _ | _
    · have := valueCmp_lt_trans a b c ho ho₂
      simp [this]
    · obtain rfl := (valueCmp_eq_iff b c).1 ho₂
      simp [ho]
    · exact absurd ho₂ h₂
  · obtain rfl := (valueCmp_eq_iff a b).1 ho
    exact h₂
  · exact absurd ho h₁

theorem valueLe_antisymm {a b : Value} (h₁ : Value.le a b) (h₂ : Value.le b a) : a = b := by
  unfold Value.le leOfCmp at *
  rcases ho : Value.cmp a b with _ | _ | _
  · rw [← valueCmp_gt_iff_lt] at ho
    exact absurd ho h₂
  · exact (valueCmp_eq_iff a b).1 ho
  · exact absurd ho h₁

instance : IsTotal Value Value.le := ⟨valueLe_total⟩

instance : IsTrans Value Value.le := ⟨fun _ _ _ => valueLe_trans⟩

instance : IsAntisymm Value Value.le := ⟨fun _ _ => valueLe_antisymm⟩

theorem keyValueKeyLe_total (a b : KeyValue) : KeyValue.keyLe a b ∨ KeyValue.keyLe b a := by
  unfold KeyValue.keyLe leOfCmpE
  by_cases h : Value.cmp a.key b.key = .gt
  · right
    rw [valueCmp_gt_iff_lt] at h
    simp [h]
  · exact Or.inl h

theorem keyValueKeyLe_trans {a b c : KeyValue} (h₁ : KeyValue.keyLe a b)
    (h₂ : KeyValue.keyLe b c) : KeyValue.keyLe a c :=
  valueLe_trans (a := a.key) (b := b.key) (c := c.key) h₁ h₂

instance : IsTotal KeyValue KeyValue.keyLe := ⟨keyValueKeyLe_total⟩

instance : IsTrans KeyValue KeyValue.keyLe := ⟨fun _ _ _ => keyValueKeyLe_trans⟩

def ValueList.toList : ValueList → List Value
  | .nil => []
  | .cons v l => v :: ValueList.toList l

def FieldList.toList : FieldList → List OrNonExhaustive
  | .nil => []
  | .cons e l => e :: FieldList.toList l

def EntryList.toList : EntryList → List KeyValue
  | .nil => []
  | .cons e l => e :: EntryList.toList l

theorem toList_injV : ∀ {a b : ValueList}, a.toList = b.toList → a = b
  | .nil, .nil, _ => rfl
  | .nil, .cons _ _, h => by simp [ValueList.toList] at h
  | .cons _ _, .nil, h => by simp [ValueList.toList] at h
  | .cons a as, .cons b bs, h => by
    simp only [ValueList.toList, List.cons.injEq] at h
    rw [h.1, toList_injV h.2]

theorem toList_injE : ∀ {a b : EntryList}, a.toList = b.toList → a = b
  | .nil, .nil, _ => rfl
  | .nil, .cons _ _, h => by simp [EntryList.toList] at h
  | .cons _ _, .nil, h => by simp [EntryList.toList] at h
  | .cons a as, .cons b bs, h => by
    simp only [EntryList.toList, List.cons.injEq] at h
    rw [h.1, toList_injE h.2]

theorem toList_orderedInsertByV (c : Value → Value → Ordering) (a : Value) :
    ∀ l : ValueList,
      (ValueList.orderedInsertBy c a l).toList = List.orderedInsert (leOfCmp c) a l.toList
  | .nil => rfl
  | .cons b l => by
    by_cases h : c a b = .gt
    · have : ¬ leOfCmp c a b := by simp [leOfCmp, h]
      simp [ValueList.orderedInsertBy, h, ValueList.toList, List.orderedInsert, this,
        toList_orderedInsertByV c a l]
    · have : leOfCmp c a b := h
      simp [ValueList.orderedInsertBy, h, ValueList.toList, List.orderedInsert, this]

theorem toList_sort_byV (c : Value → Value → Ordering) :
    ∀ l : ValueList, (ValueList.sort_by c l).toList = List.insertionSort (leOfCmp c) l.toList
  | .nil => rfl
  | .cons a l => by
    simp [ValueList.sort_by, ValueList.toList, List.insertionSort,
      toList_orderedInsertByV, toList_sort_byV c l]

theorem toList_orderedInsertByE (c : KeyValue → KeyValue → Ordering) (a : KeyValue) :
    ∀ l : EntryList,
      (EntryList.orderedInsertBy c a l).toList = List.orderedInsert (leOfCmpE c) a l.toList
  | .nil => rfl
  | .cons b l => by
    by_cases h : c a b = .gt
    · have : ¬ leOfCmpE c a b := by simp [leOfCmpE, h]
      simp [EntryList.orderedInsertBy, h, EntryList.toList, List.orderedInsert, this,
        toList_orderedInsertByE c a l]
    · have : leOfCmpE c a b := h
      simp [EntryList.orderedInsertBy, h, EntryList.toList, List.orderedInsert, this]

theorem toList_sort_byE (c : KeyValue → KeyValue → Ordering) :
    ∀ l : EntryList, (EntryList.sort_by c l).toList = List.insertionSort (leOfCmpE c) l.toList
  | .nil => rfl
  | .cons a l => by
    simp [EntryList.sort_by, EntryList.toList, List.insertionSort,
      toList_orderedInsertByE, toList_sort_byE c l]

instance : IsTotal Value (leOfCmp Value.cmp) := ⟨valueLe_total⟩

instance : IsTrans Value (leOfCmp Value.cmp) := ⟨fun _ _ _ => valueLe_trans⟩

instance : IsAntisymm Value (leOfCmp Value.cmp) := ⟨fun _ _ => valueLe_antisymm⟩

instance : IsTotal KeyValue (leOfCmpE fun a b => a.key.cmp b.key) := ⟨keyValueKeyLe_total⟩

instance : IsTrans KeyValue (leOfCmpE fun a b => a.key.cmp b.key) :=
  ⟨fun _ _ _ => keyValueKeyLe_trans⟩

theorem sort_maps_term (t : String) : sort_maps (.Term t) = .Term t := by
  rw [sort_maps]

theorem sort_maps_struct (n : String) (f : FieldList) :
    sort_maps (.Struct n f) = .Struct n (sortMapsFields f) := by
  rw [sort_maps]

theorem sort_maps_set (l : ValueList) :
    sort_maps (.Set l) = .Set (sortMapsEach (l.sort_by Value.cmp)) := by
  rw [sort_maps]

theorem sort_maps_map (l : EntryList) :
    sort_maps (.Map l) = .Map (sortMapsEntries (l.sort_by fun a b => a.key.cmp b.key)) := by
  rw [sort_maps]

theorem sort_maps_list (l : ValueList) :
    sort_maps (.List l) = .List (sortMapsEach (l.sort_by Value.cmp)) := by
  rw [sort_maps]

theorem sort_maps_tuple (l : ValueList) :
    sort_maps (.Tuple l) = .Tuple (sortMapsEach (l.sort_by Value.cmp)) := by
  rw [sort_maps]

/-- Normalization of one Map entry: `sort_maps` applied to its key and its
value, as in the Map loop of `sort_maps`. -/
def KeyValue.normalize (e : KeyValue) : KeyValue := .mk (sort_maps e.key) (sort_maps e.value)

/-- Normalization of one Struct field entry: `sort_maps` applied to the
value of a labelled entry, the open marker left untouched. -/
def OrNonExhaustive.normalize : OrNonExhaustive → OrNonExhaustive
  | .Value i v => .Value i (sort_maps v)
  | .NonExhaustive => .NonExhaustive

theorem sortMapsEach_toList : ∀ l : ValueList, (sortMapsEach l).toList = l.toList.map sort_maps
  | .nil => by rw [sortMapsEach]; rfl
  | .cons v l => by
    rw [sortMapsEach]
    simp [ValueList.toList, sortMapsEach_toList l]

theorem sortMapsEntries_toList :
    ∀ l : EntryList, (sortMapsEntries l).toList = l.toList.map KeyValue.normalize
  | .nil => by rw [sortMapsEntries]; rfl
  | .cons (.mk k v) l => by
    rw [sortMapsEntries]
    simp [EntryList.toList, sortMapsEntries_toList l, KeyValue.normalize, KeyValue.key,
      KeyValue.value]

theorem sortMapsFields_toList :
    ∀ l : FieldList, (sortMapsFields l).toList = l.toList.map OrNonExhaustive.normalize
  | .nil => by rw [sortMapsFields]; rfl
  | .cons (.Value i v) l => by
    rw [sortMapsFields]
    simp [FieldList.toList, sortMapsFields_toList l, OrNonExhaustive.normalize]
  | .cons .NonExhaustive l => by
    rw [sortMapsFields]
    simp [FieldList.toList, sortMapsFields_toList l, OrNonExhaustive.normalize]

theorem sort_by_permV (c : Value → Value → Ordering) (l : ValueList) :
    (ValueList.sort_by c l).toList.Perm l.toList := by
  rw [toList_sort_byV]
  exact List.perm_insertionSort _ _

theorem sort_by_permE (c : KeyValue → KeyValue → Ordering) (l : EntryList) :
    (EntryList.sort_by c l).toList.Perm l.toList := by
  rw [toList_sort_byE]
  exact List.perm_insertionSort _ _

theorem sort_by_sortedV (l : ValueList) :
    List.Sorted (leOfCmp Value.cmp) (ValueList.sort_by Value.cmp l).toList := by
  rw [toList_sort_byV]
  exact List.sorted_insertionSort _ _

theorem sort_by_sortedE (l : EntryList) :
    List.Sorted (leOfCmpE fun a b => a.key.cmp b.key)
      (EntryList.sort_by (fun a b => a.key.cmp b.key) l).toList := by
  rw [toList_sort_byE]
  exact List.sorted_insertionSort _ _

theorem sort_by_of_sortedV {l : ValueList}
    (h : List.Sorted (leOfCmp Value.cmp) l.toList) : ValueList.sort_by Value.cmp l = l := by
  apply toList_injV
  rw [toList_sort_byV]
  exact h.insertionSort_eq

theorem sort_by_of_sortedE {l : EntryList}
    (h : List.Sorted (leOfCmpE fun a b => a.key.cmp b.key) l.toList) :
    EntryList.sort_by (fun a b => a.key.cmp b.key) l = l := by
  apply toList_injE
  rw [toList_sort_byE]
  exact h.insertionSort_eq

theorem sort_by_eq_of_permV {l₁ l₂ : ValueList} (h : l₁.toList.Perm l₂.toList) :
    ValueList.sort_by Value.cmp l₁ = ValueList.sort_by Value.cmp l₂ := by
  apply toList_injV
  exact List.eq_of_perm_of_sorted
    (((sort_by_permV _ l₁).trans h).trans (sort_by_permV _ l₂).symm)
    (sort_by_sortedV l₁) (sort_by_sortedV l₂)

theorem eq_of_perm_of_sorted_nodup_keys :
    ∀ {l₁ l₂ : List KeyValue}, l₁.Perm l₂ →
      List.Sorted (leOfCmpE fun a b => a.key.cmp b.key) l₁ →
      List.Sorted (leOfCmpE fun a b => a.key.cmp b.key) l₂ →
      (l₁.map KeyValue.key).Nodup → l₁ = l₂
  | [], l₂, hp, _, _, _ => hp.nil_eq
  | a :: t, l₂, hp, hs₁, hs₂, hnd => by
    cases l₂ with
    | nil => exact absurd hp.symm.nil_eq (by simp)
    | cons b t₂ => ?_
    have hab : a = b := by
      by_cases hb : b = a
      · exact hb.symm
      · have hbmem : b ∈ a :: t := hp.symm.subset (List.mem_cons_self b t₂)
        have hbt : b ∈ t := by
          rcases List.mem_cons.1 hbmem with h | h
          · exact absurd h hb
          · exact h
        have hamem : a ∈ b :: t₂ := hp.subset (List.mem_cons_self a t)
        have hat : a ∈ t₂ := by
          rcases List.mem_cons.1 hamem with h | h
          · exact absurd h.symm hb
          · exact h
        have h₁ : leOfCmpE (fun x y => x.key.cmp y.key) a b :=
          List.rel_of_sorted_cons hs₁ b hbt
        have h₂ : leOfCmpE (fun x y => x.key.cmp y.key) b a :=
          List.rel_of_sorted_cons hs₂ a hat
        have hkey : a.key = b.key := valueLe_antisymm h₁ h₂
        exfalso
        have : a.key ∈ t.map KeyValue.key := by
          rw [hkey]
          exact List.mem_map_of_mem KeyValue.key hbt
        simp only [List.map_cons, List.nodup_cons] at hnd
        exact hnd.1 this
    subst hab
    have htp : t.Perm t₂ := hp.cons_inv
    have := eq_of_perm_of_sorted_nodup_keys htp hs₁.tail hs₂.tail
      (by simp only [List.map_cons, List.nodup_cons] at hnd; exact hnd.2)
    rw [this]

theorem sort_by_eq_of_perm_nodupE {l₁ l₂ : EntryList}
    (h : l₁.toList.Perm l₂.toList) ( hnd : (l₁.toList.map KeyValue.key).Nodup) :
    EntryList.sort_by (fun a b => a.key.cmp b.key) l₁ =
      EntryList.sort_by (fun a b => a.key.cmp b.key) l₂ := by
  apply toList_injE
  apply eq_of_perm_of_sorted_nodup_keys
    (((sort_by_permE _ l₁).trans h).trans (sort_by_permE _ l₂).symm)
    (sort_by_sortedE l₁) (sort_by_sortedE l₂)
  exact ((sort_by_permE _ l₁).map KeyValue.key).nodup_iff.2 hnd

/-- A Value is normal when the Canonical Ordering Engine leaves it
unchanged. -/
def IsNormal (v : Value) : Prop := sort_maps v = v

/-- Iterated application of `sort_maps`. -/
def sortMapsIter : Nat → Value → Value
  | 0, v => v
  | n + 1, v => sortMapsIter n (sort_maps v)

theorem sortMapsIter_succ_right : ∀ (n : Nat) (v : Value),
    sortMapsIter (n + 1) v = sort_maps (sortMapsIter n v)
  | 0, _ => rfl
  | n + 1, v => sortMapsIter_succ_right n (sort_maps v)

theorem sortMapsIter_add (m n : Nat) (v : Value) :
    sortMapsIter (m + n) v = sortMapsIter m (sortMapsIter n v) := by
  induction n generalizing v with
  | zero => rfl
  | succ n ih => rw [show m + (n + 1) = (m + n) + 1 by omega, sortMapsIter, sortMapsIter, ih]

theorem sortMapsIter_of_normal {v : Value} (h : IsNormal v) :
    ∀ n, sortMapsIter n v = v := by
  intro n
  induction n with
  | zero => rfl
  | succ n ih => rw [sortMapsIter_succ_right, ih, h]

theorem isNormal_iter_le {v : Value} {n N : Nat} (hn : n ≤ N)
    (h : IsNormal (sortMapsIter n v)) : IsNormal (sortMapsIter N v) := by
  have : sortMapsIter N v = sortMapsIter n v := by
    rw [show N = (N - n) + n by omega, sortMapsIter_add, sortMapsIter_of_normal h]
  rw [this]
  exact h

theorem toList_injF : ∀ {a b : FieldList}, a.toList = b.toList → a = b
  | .nil, .nil, _ => rfl
  | .nil, .cons _ _, h => by simp [FieldList.toList] at h
  | .cons _ _, .nil, h => by simp [FieldList.toList] at h
  | .cons a as, .cons b bs, h => by
    simp only [FieldList.toList, List.cons.injEq] at h
    rw [h.1, toList_injF h.2]

theorem sortMapsEach_of_normal {l : ValueList} (h : ∀ x ∈ l.toList, IsNormal x) :
    sortMapsEach l = l := by
  apply toList_injV
  rw [sortMapsEach_toList]
  rw [show l.toList.map sort_maps = l.toList.map id from List.map_congr_left h]
  exact List.map_id _

theorem sortMapsFields_of_normal {l : FieldList}
    (h : ∀ e ∈ l.toList, OrNonExhaustive.normalize e = e) : sortMapsFields l = l := by
  apply toList_injF
  rw [sortMapsFields_toList]
  rw [show l.toList.map OrNonExhaustive.normalize = l.toList.map id from List.map_congr_left h]
  exact List.map_id _

theorem sortMapsEntries_of_normal {l : EntryList}
    (h : ∀ e ∈ l.toList, KeyValue.normalize e = e) : sortMapsEntries l = l := by
  apply toList_injE
  rw [sortMapsEntries_toList]
  rw [show l.toList.map KeyValue.normalize = l.toList.map id from List.map_congr_left h]
  exact List.map_id _

theorem isNormal_term (t : String) : IsNormal (.Term t) := sort_maps_term t

theorem isNormal_struct {n : String} {fs : FieldList}
    (h : ∀ e ∈ fs.toList, OrNonExhaustive.normalize e = e) : IsNormal (.Struct n fs) := by
  unfold IsNormal
  rw [sort_maps_struct, sortMapsFields_of_normal h]

theorem isNormal_set {l : ValueList} (hs : List.Sorted (leOfCmp Value.cmp) l.toList)
    (h : ∀ x ∈ l.toList, IsNormal x) : IsNormal (.Set l) := by
  unfold IsNormal
  rw [sort_maps_set, sort_by_of_sortedV hs, sortMapsEach_of_normal h]

theorem isNormal_list {l : ValueList} (hs : List.Sorted (leOfCmp Value.cmp) l.toList)
    (h : ∀ x ∈ l.toList, IsNormal x) : IsNormal (.List l) := by
  unfold IsNormal
  rw [sort_maps_list, sort_by_of_sortedV hs, sortMapsEach_of_normal h]

theorem isNormal_tuple {l : ValueList} (hs : List.Sorted (leOfCmp Value.cmp) l.toList)
    (h : ∀ x ∈ l.toList, IsNormal x) : IsNormal (.Tuple l) := by
  unfold IsNormal
  rw [sort_maps_tuple, sort_by_of_sortedV hs, sortMapsEach_of_normal h]

theorem isNormal_map {l : EntryList}
    (hs : List.Sorted (leOfCmpE fun a b => a.key.cmp b.key) l.toList)
    (h : ∀ e ∈ l.toList, KeyValue.normalize e = e) : IsNormal (.Map l) := by
  unfold IsNormal
  rw [sort_maps_map, sort_by_of_sortedE hs, sortMapsEntries_of_normal h]

/-- Pointwise iteration of normalization on a Struct field entry. -/
def fieldIter (k : Nat) : OrNonExhaustive → OrNonExhaustive
  | .Value i v => .Value i (sortMapsIter k v)
  | .NonExhaustive => .NonExhaustive

/-- Pointwise iteration of normalization on a Map entry. -/
def entryIter (k : Nat) (e : KeyValue) : KeyValue :=
  .mk (sortMapsIter k e.key) (sortMapsIter k e.value)

theorem keyValueMk_key_value : ∀ e : KeyValue, KeyValue.mk e.key e.value = e
  | .mk _ _ => rfl

def fieldValueOf (e : OrNonExhaustive) : Option Value :=
  match e with
  | .Value _ v => some v
  | .NonExhaustive => none

theorem sortMapsIter_term (k : Nat) (t : String) : sortMapsIter k (.Term t) = .Term t := by
  induction k with
  | zero => rfl
  | succ k ih => rw [sortMapsIter_succ_right, ih, sort_maps_term]

theorem sortMapsIter_struct : ∀ (k : Nat) (n : String) (fs : FieldList),
    ∃ fs', sortMapsIter k (.Struct n fs) = .Struct n fs' ∧
      fs'.toList = fs.toList.map (fieldIter k) := by
  intro k
  induction k with
  | zero =>
    intro n fs
    refine ⟨fs, rfl, ?_⟩
    rw [show fs.toList.map (fieldIter 0) = fs.toList.map id from
      List.map_congr_left fun e _ => by cases e <;> rfl]
    exact (List.map_id _).symm
  | succ k ih =>
    intro n fs
    rw [show sortMapsIter (k + 1) (.Struct n fs)
        = sortMapsIter k (sort_maps (.Struct n fs)) from rfl, sort_maps_struct]
    obtain ⟨fs', heq, hmap⟩ := ih n (sortMapsFields fs)
    refine ⟨fs', heq, ?_⟩
    rw [hmap, sortMapsFields_toList, List.map_map]
    exact List.map_congr_left fun e _ => by cases e <;> rfl

theorem sortMapsIter_set : ∀ (k : Nat) (l : ValueList),
    ∃ l', sortMapsIter k (.Set l) = .Set l' ∧
      l'.toList.Perm (l.toList.map (sortMapsIter k)) := by
  intro k
  induction k with
  | zero =>
    intro l
    refine ⟨l, rfl, ?_⟩
    rw [show l.toList.map (sortMapsIter 0) = l.toList.map id from
      List.map_congr_left fun v _ => rfl, List.map_id]
  | succ k ih =>
    intro l
    rw [show sortMapsIter (k + 1) (.Set l) = sortMapsIter k (sort_maps (.Set l)) from rfl,
      sort_maps_set]
    obtain ⟨l', heq, hperm⟩ := ih (sortMapsEach (l.sort_by Value.cmp))
    refine ⟨l', heq, ?_⟩
    have h1 : (sortMapsEach (l.sort_by Value.cmp)).toList.Perm (l.toList.map sort_maps) := by
      rw [sortMapsEach_toList]
      exact (sort_by_permV Value.cmp l).map sort_maps
    have h2 := hperm.trans (h1.map (sortMapsIter k))
    rw [List.map_map] at h2
    exact h2

theorem sortMapsIter_list : ∀ (k : Nat) (l : ValueList),
    ∃ l', sortMapsIter k (.List l) = .List l' ∧
      l'.toList.Perm (l.toList.map (sortMapsIter k)) := by
  intro k
  induction k with
  | zero =>
    intro l
    refine ⟨l, rfl, ?_⟩
    rw [show l.toList.map (sortMapsIter 0) = l.toList.map id from
      List.map_congr_left fun v _ => rfl, List.map_id]
  | succ k ih =>
    intro l
    rw [show sortMapsIter (k + 1) (.List l) = sortMapsIter k (sort_maps (.List l)) from rfl,
      sort_maps_list]
    obtain ⟨l', heq, hperm⟩ := ih (sortMapsEach (l.sort_by Value.cmp))
    refine ⟨l', heq, ?_⟩
    have h1 : (sortMapsEach (l.sort_by Value.cmp)).toList.Perm (l.toList.map sort_maps) := by
      rw [sortMapsEach_toList]
      exact (sort_by_permV Value.cmp l).map sort_maps
    have h2 := hperm.trans (h1.map (sortMapsIter k))
    rw [List.map_map] at h2
    exact h2

theorem sortMapsIter_tuple : ∀ (k : Nat) (l : ValueList),
    ∃ l', sortMapsIter k (.Tuple l) = .Tuple l' ∧
      l'.toList.Perm (l.toList.map (sortMapsIter k)) := by
  intro k
  induction k with
  | zero =>
    intro l
    refine ⟨l, rfl, ?_⟩
    rw [show l.toList.map (sortMapsIter 0) = l.toList.map id from
      List.map_congr_left fun v _ => rfl, List.map_id]
  | succ k ih =>
    intro l
    rw [show sortMapsIter (k + 1) (.Tuple l) = sortMapsIter k (sort_maps (.Tuple l)) from rfl,
      sort_maps_tuple]
    obtain ⟨l', heq, hperm⟩ := ih (sortMapsEach (l.sort_by Value.cmp))
    refine ⟨l', heq, ?_⟩
    have h1 : (sortMapsEach (l.sort_by Value.cmp)).toList.Perm (l.toList.map sort_maps) := by
      rw [sortMapsEach_toList]
      exact (sort_by_permV Value.cmp l).map sort_maps
    have h2 := hperm.trans (h1.map (sortMapsIter k))
    rw [List.map_map] at h2
    exact h2

theorem sortMapsIter_map : ∀ (k : Nat) (l : EntryList),
    ∃ l', sortMapsIter k (.Map l) = .Map l' ∧
      l'.toList.Perm (l.toList.map (entryIter k)) := by
  intro k
  induction k with
  | zero =>
    intro l
    refine ⟨l, rfl, ?_⟩
    rw [show l.toList.map (entryIter 0) = l.toList.map id from
      List.map_congr_left fun e _ => keyValueMk_key_value e, List.map_id]
  | succ k ih =>
    intro l
    rw [show sortMapsIter (k + 1) (.Map l) = sortMapsIter k (sort_maps (.Map l)) from rfl,
      sort_maps_map]
    obtain ⟨l', heq, hperm⟩ :=
      ih (sortMapsEntries (l.sort_by fun a b => a.key.cmp b.key))
    refine ⟨l', heq, ?_⟩
    have h1 : (sortMapsEntries (l.sort_by fun a b => a.key.cmp b.key)).toList.Perm
        (l.toList.map KeyValue.normalize) := by
      rw [sortMapsEntries_toList]
      exact (sort_by_permE _ l).map KeyValue.normalize
    have h2 := hperm.trans (h1.map (entryIter k))
    rw [List.map_map] at h2
    refine h2.trans ?_
    rw [show l.toList.map (entryIter k ∘ KeyValue.normalize)
      = l.toList.map (entryIter (k + 1)) from List.map_congr_left fun e _ => rfl]

theorem sizeOf_lt_of_memV : ∀ {l : ValueList} {x : Value},
    x ∈ l.toList → sizeOf x < sizeOf l
  | .cons a as, x, h => by
    rcases List.mem_cons.1 h with h | h
    · subst h
      simp
      omega
    · have := sizeOf_lt_of_memV h
      simp
      omega

theorem sizeOf_lt_of_memF : ∀ {l : FieldList} {e : OrNonExhaustive},
    e ∈ l.toList → sizeOf e < sizeOf l
  | .cons a as, e, h => by
    rcases List.mem_cons.1 h with h | h
    · subst h
      simp
      omega
    · have := sizeOf_lt_of_memF h
      simp
      omega

theorem sizeOf_lt_of_memE : ∀ {l : EntryList} {e : KeyValue},
    e ∈ l.toList → sizeOf e < sizeOf l
  | .cons a as, e, h => by
    rcases List.mem_cons.1 h with h | h
    · subst h
      simp
      omega
    · have := sizeOf_lt_of_memE h
      simp
      omega

theorem fieldValueOf_sizeOf {e : OrNonExhaustive} {v : Value} (h : fieldValueOf e = some v) :
    sizeOf v < sizeOf e := by
  cases e with
  | Value i w =>
    simp [fieldValueOf] at h
    subst h
    simp
  | NonExhaustive => simp [fieldValueOf] at h

theorem keyValueSizeOf_key : ∀ e : KeyValue, sizeOf e.key < sizeOf e
  | .mk k v => by
    simp [KeyValue.key]
    omega

theorem keyValueSizeOf_value : ∀ e : KeyValue, sizeOf e.value < sizeOf e
  | .mk k v => by
    simp [KeyValue.value]

theorem uniformNormalBound : ∀ L : List Value,
    (∀ x ∈ L, ∃ n, IsNormal (sortMapsIter n x)) →
    ∃ N, ∀ x ∈ L, IsNormal (sortMapsIter N x)
  | [], _ => ⟨0, by simp⟩
  | a :: t, h => by
    obtain ⟨na, hna⟩ := h a (List.mem_cons_self a t)
    obtain ⟨N, hN⟩ := uniformNormalBound t fun x hx => h x (List.mem_cons_of_mem a hx)
    refine ⟨max na N, fun x hx => ?_⟩
    rcases List.mem_cons.1 hx with h | h
    · subst h
      exact isNormal_iter_le (Nat.le_max_left na N) hna
    · exact isNormal_iter_le (Nat.le_max_right na N) (hN x h)

/-- Repeated normalization reaches a fixed point on every Value. -/
theorem eventually_normal : ∀ v : Value, ∃ n, IsNormal (sortMapsIter n v)
  | .Term t => ⟨0, isNormal_term t⟩
  | .Struct nm fs => by
    obtain ⟨N, hN⟩ := uniformNormalBound (fs.toList.filterMap fieldValueOf)
      fun x hx => eventually_normal x
    obtain ⟨fs', heq, hmap⟩ := sortMapsIter_struct N nm fs
    refine ⟨N, ?_⟩
    rw [heq]
    apply isNormal_struct
    intro e he
    rw [hmap] at he
    obtain ⟨e₀, he₀, rfl⟩ := List.mem_map.1 he
    cases e₀ with
    | NonExhaustive => rfl
    | Value i v =>
      have hv : v ∈ fs.toList.filterMap fieldValueOf :=
        List.mem_filterMap.2 ⟨.Value i v, he₀, rfl⟩
      have := hN v hv
      simp only [fieldIter, OrNonExhaustive.normalize]
      rw [this]
  | .Set l => by
    obtain ⟨N, hN⟩ := uniformNormalBound l.toList fun x hx => eventually_normal x
    obtain ⟨lN, heq, hperm⟩ := sortMapsIter_set N l
    have hnorm : ∀ x ∈ lN.toList, IsNormal x := by
      intro x hx
      obtain ⟨y, hy, rfl⟩ := List.mem_map.1 (hperm.subset hx)
      exact hN y hy
    refine ⟨N + 1, ?_⟩
    rw [sortMapsIter_succ_right, heq]
    have h1 : sort_maps (.Set lN) = .Set (ValueList.sort_by Value.cmp lN) := by
      rw [sort_maps_set, sortMapsEach_of_normal]
      intro x hx
      exact hnorm x ((sort_by_permV Value.cmp lN).subset hx)
    rw [IsNormal, h1, ← IsNormal]
    apply isNormal_set (sort_by_sortedV lN)
    intro x hx
    exact hnorm x ((sort_by_permV Value.cmp lN).subset hx)
  | .List l => by
    obtain ⟨N, hN⟩ := uniformNormalBound l.toList fun x hx => eventually_normal x
    obtain ⟨lN, heq, hperm⟩ := sortMapsIter_list N l
    have hnorm : ∀ x ∈ lN.toList, IsNormal x := by
      intro x hx
      obtain ⟨y, hy, rfl⟩ := List.mem_map.1 (hperm.subset hx)
      exact hN y hy
    refine ⟨N + 1, ?_⟩
    rw [sortMapsIter_succ_right, heq]
    have h1 : sort_maps (.List lN) = .List (ValueList.sort_by Value.cmp lN) := by
      rw [sort_maps_list, sortMapsEach_of_normal]
      intro x hx
      exact hnorm x ((sort_by_permV Value.cmp lN).subset hx)
    rw [IsNormal, h1, ← IsNormal]
    apply isNormal_list (sort_by_sortedV lN)
    intro x hx
    exact hnorm x ((sort_by_permV Value.cmp lN).subset hx)
  | .Tuple l => by
    obtain ⟨N, hN⟩ := uniformNormalBound l.toList fun x hx => eventually_normal x
    obtain ⟨lN, heq, hperm⟩ := sortMapsIter_tuple N l
    have hnorm : ∀ x ∈ lN.toList, IsNormal x := by
      intro x hx
      obtain ⟨y, hy, rfl⟩ := List.mem_map.1 (hperm.subset hx)
      exact hN y hy
    refine ⟨N + 1, ?_⟩
    rw [sortMapsIter_succ_right, heq]
    have h1 : sort_maps (.Tuple lN) = .Tuple (ValueList.sort_by Value.cmp lN) := by
      rw [sort_maps_tuple, sortMapsEach_of_normal]
      intro x hx
      exact hnorm x ((sort_by_permV Value.cmp lN).subset hx)
    rw [IsNormal, h1, ← IsNormal]
    apply isNormal_tuple (sort_by_sortedV lN)
    intro x hx
    exact hnorm x ((sort_by_permV Value.cmp lN).subset hx)
  | .Map es => by
    obtain ⟨N₁, hN₁⟩ := uniformNormalBound (es.toList.map KeyValue.key)
      fun x hx => eventually_normal x
    obtain ⟨N₂, hN₂⟩ := uniformNormalBound (es.toList.map KeyValue.value)
      fun x hx => eventually_normal x
    set N := max N₁ N₂ with hNdef
    have hkeys : ∀ x ∈ es.toList.map KeyValue.key, IsNormal (sortMapsIter N x) :=
      fun x hx => isNormal_iter_le (Nat.le_max_left N₁ N₂) (hN₁ x hx)
    have hvals : ∀ x ∈ es.toList.map KeyValue.value, IsNormal (sortMapsIter N x) :=
      fun x hx => isNormal_iter_le (Nat.le_max_right N₁ N₂) (hN₂ x hx)
    obtain ⟨eN, heq, hperm⟩ := sortMapsIter_map N es
    have hnorm : ∀ e ∈ eN.toList, KeyValue.normalize e = e := by
      intro e he
      obtain ⟨e₀, he₀, rfl⟩ := List.mem_map.1 (hperm.subset he)
      cases e₀ with
      | mk k₀ v₀ =>
        have hk := hkeys k₀ (List.mem_map_of_mem KeyValue.key he₀)
        have hv := hvals v₀ (List.mem_map_of_mem KeyValue.value he₀)
        simp only [entryIter, KeyValue.normalize, KeyValue.key, KeyValue.value]
        rw [hk, hv]
    refine ⟨N + 1, ?_⟩
    rw [sortMapsIter_succ_right, heq]
    have h1 : sort_maps (.Map eN) = .Map (EntryList.sort_by (fun a b => a.key.cmp b.key) eN) := by
      rw [sort_maps_map, sortMapsEntries_of_normal]
      intro e he
      exact hnorm e ((sort_by_permE _ eN).subset he)
    rw [IsNormal, h1, ← IsNormal]
    apply isNormal_map (sort_by_sortedE eN)
    intro e he
    exact hnorm e ((sort_by_permE _ eN).subset he)
  termination_by v => sizeOf v
  decreasing_by
    all_goals first
      | (obtain ⟨e, he, hve⟩ := List.mem_filterMap.1 hx
         have h1 := fieldValueOf_sizeOf hve
         have h2 := sizeOf_lt_of_memF he
         simp
         omega)
      | (obtain ⟨e, he, rfl⟩ := List.mem_map.1 hx
         have h1 := keyValueSizeOf_key e
         have h2 := sizeOf_lt_of_memE he
         simp
         omega)
      | (obtain ⟨e, he, rfl⟩ := List.mem_map.1 hx
         have h1 := keyValueSizeOf_value e
         have h2 := sizeOf_lt_of_memE he
         simp
         omega)
      | (have h1 := sizeOf_lt_of_memV hx
         simp
         omega)

/-- Four spaces of indentation per nesting level, the layout step of the
pretty rendering. -/
def spaces : Nat → String
  | 0 => ""
  | n + 1 => spaces n ++ "    "

mutual

/-- Modelled from the spec: the Stable Renderer (§4.2), the pretty
multi-line rendering of a Value at a given nesting level: per-variant
delimiters, one entry per line, four-space nested indentation, trailing
commas on entries, the open marker on a line of its own without a comma,
empty containers on a single line, and the compact single-line open-marker
form for a Struct whose body is only the marker — the form targeted by the
rewrite in `SortedDebug::fmt`. -/
def render (ind : Nat) : Value → String
  | .Term t => t
  | .Tuple .nil => "()"
  | .Tuple (.cons v l) =>
      "(\n" ++ renderItems (ind + 1) (.cons v l) ++ spaces ind ++ ")"
  | .List .nil => "[]"
  | .List (.cons v l) =>
      "[\n" ++ renderItems (ind + 1) (.cons v l) ++ spaces ind ++ "]"
  | .Set .nil => "\x7b\x7d"
  | .Set (.cons v l) =>
      "\x7b\n" ++ renderItems (ind + 1) (.cons v l) ++ spaces ind ++ "\x7d"
  | .Map .nil => "\x7b\x7d"
  | .Map (.cons e l) =>
      "\x7b\n" ++ renderEntries (ind + 1) (.cons e l) ++ spaces ind ++ "\x7d"
  | .Struct n .nil => n
  | .Struct n (.cons .NonExhaustive .nil) => n ++ " \x7b .. \x7d"
  | .Struct n (.cons (.Value i v) l) =>
      n ++ " \x7b\n" ++ renderFields (ind + 1) (.cons (.Value i v) l) ++ spaces ind ++ "\x7d"
  | .Struct n (.cons .NonExhaustive (.cons e l)) =>
      n ++ " \x7b\n" ++ renderFields (ind + 1) (.cons .NonExhaustive (.cons e l)) ++
        spaces ind ++ "\x7d"
  termination_by structural v => v

/-- One line per element: indentation, the element, a trailing comma. -/
def renderItems (ind : Nat) : ValueList → String
  | .nil => ""
  | .cons v l => spaces ind ++ render ind v ++ ",\n" ++ renderItems ind l
  termination_by structural l => l

/-- One line per Map entry: indentation, key, a colon, value, comma. -/
def renderEntries (ind : Nat) : EntryList → String
  | .nil => ""
  | .cons (.mk k v) l =>
      spaces ind ++ render ind k ++ ": " ++ render ind v ++ ",\n" ++ renderEntries ind l
  termination_by structural l => l

/-- One line per Struct field: indentation, label, a colon, value, comma;
the open marker renders as a bare double-dot line. -/
def renderFields (ind : Nat) : FieldList → String
  | .nil => ""
  | .cons (.Value i v) l =>
      spaces ind ++ i ++ ": " ++ render ind v ++ ",\n" ++ renderFields ind l
  | .cons .NonExhaustive l => spaces ind ++ "..\n" ++ renderFields ind l
  termination_by structural l => l

end

/-- Translation of the post-processing replacement in `SortedDebug::fmt`
(src/lib.rs line 123): every occurrence of the six-character open-marker
substring is replaced, left to right and non-overlapping, by an opening
brace, a newline and a closing brace, exactly as Rust's `str::replace`
does for this fixed pattern. -/
def replaceMarker : List Char → List Char
  | '{' :: ' ' :: '.' :: '.' :: ' ' :: '}' :: rest => '{' :: '\n' :: '}' :: replaceMarker rest
  | c :: rest => c :: replaceMarker rest
  | [] => []

/-- String form of `replaceMarker`. -/
def replaceMarkerStr (s : String) : String := String.mk (replaceMarker s.data)

/-- Translation of `SortedDebug::fmt` (src/lib.rs lines 108-125), taking
the outcome of the external parse of the inner value's Debug text: a parse
error aborts the whole formatting (a Rust panic, modelled as the error
branch) with a message surfacing the parser diagnostic; otherwise the tree
is sorted with `sort_maps`, pretty-rendered, and post-processed by the
open-marker replacement. -/
def SortedDebug.fmt (parsed : Except String Value) : Except String String :=
  match parsed with
  | .error err =>
      .error ("Failed to parse Debug output for sorting (please use `assert_eq!` instead and/or file an issue for your use-case)!\nError: " ++ err)
  | .ok value => .ok (replaceMarkerStr (render 0 (sort_maps value)))

/-- The sorted Debug text of a successfully parsed value, as produced by
`SortedDebug::fmt` and compared by `assert_eq_sorted!`. -/
def sorted_debug (v : Value) : String := replaceMarkerStr (render 0 (sort_maps v))

/-- The Sorted-Equality Assertion succeeds exactly when the two sorted
Debug texts coincide (the comparison in the `assert_eq_sorted!` macro,
src/lib.rs line 67). -/
def assert_eq_sorted_succeeds (a b : Value) : Prop := sorted_debug a = sorted_debug b

mutual

/-- Fuel-indexed evaluator for `sort_maps`, structurally recursive on the
fuel and returning its input unchanged when the fuel runs out.  Fuel equal
to the size of the input always suffices (`sortMapsFuel_spec`), so one
engine invocation performs a bounded amount of work determined by the size
of its input. -/
def sortMapsFuel : Nat → Value → Value
  | 0, v => v
  | _ + 1, .Term t => .Term t
  | fuel + 1, .Struct n fs => .Struct n (sortMapsFieldsFuel fuel fs)
  | fuel + 1, .Set l => .Set (sortMapsEachFuel fuel (l.sort_by Value.cmp))
  | fuel + 1, .Map es =>
      .Map (sortMapsEntriesFuel fuel (es.sort_by fun a b => a.key.cmp b.key))
  | fuel + 1, .List l => .List (sortMapsEachFuel fuel (l.sort_by Value.cmp))
  | fuel + 1, .Tuple l => .Tuple (sortMapsEachFuel fuel (l.sort_by Value.cmp))

/-- Fuel-indexed Struct field loop. -/
def sortMapsFieldsFuel : Nat → FieldList → FieldList
  | 0, l => l
  | _ + 1, .nil => .nil
  | fuel + 1, .cons (.Value i v) l =>
      .cons (.Value i (sortMapsFuel fuel v)) (sortMapsFieldsFuel fuel l)
  | fuel + 1, .cons .NonExhaustive l => .cons .NonExhaustive (sortMapsFieldsFuel fuel l)

/-- Fuel-indexed element loop. -/
def sortMapsEachFuel : Nat → ValueList → ValueList
  | 0, l => l
  | _ + 1, .nil => .nil
  | fuel + 1, .cons v l => .cons (sortMapsFuel fuel v) (sortMapsEachFuel fuel l)

/-- Fuel-indexed Map entry loop. -/
def sortMapsEntriesFuel : Nat → EntryList → EntryList
  | 0, l => l
  | _ + 1, .nil => .nil
  | fuel + 1, .cons (.mk k v) l =>
      .cons (.mk (sortMapsFuel fuel k) (sortMapsFuel fuel v)) (sortMapsEntriesFuel fuel l)

end

theorem one_le_sizeOfVal (v : Value) : 1 ≤ sizeOf v := by
  cases v <;> simp
  all_goals omega

theorem one_le_sizeOfFL (l : FieldList) : 1 ≤ sizeOf l := by
  cases l <;> simp
  all_goals omega

theorem one_le_sizeOfVL (l : ValueList) : 1 ≤ sizeOf l := by
  cases l <;> simp
  all_goals omega

theorem one_le_sizeOfEL (l : EntryList) : 1 ≤ sizeOf l := by
  cases l <;> simp
  all_goals omega

theorem sortMapsFuel_spec_all : ∀ fuel : Nat,
    (∀ v : Value, sizeOf v ≤ fuel → sortMapsFuel fuel v = sort_maps v) ∧
    (∀ l : FieldList, sizeOf l ≤ fuel → sortMapsFieldsFuel fuel l = sortMapsFields l) ∧
    (∀ l : ValueList, sizeOf l ≤ fuel → sortMapsEachFuel fuel l = sortMapsEach l) ∧
    (∀ l : EntryList, sizeOf l ≤ fuel → sortMapsEntriesFuel fuel l = sortMapsEntries l) := by
  intro fuel
  induction fuel with
  | zero =>
    refine ⟨fun v h => ?_, fun l h => ?_, fun l h => ?_, fun l h => ?_⟩
    · exact absurd h (by have := one_le_sizeOfVal v; omega)
    · exact absurd h (by have := one_le_sizeOfFL l; omega)
    · exact absurd h (by have := one_le_sizeOfVL l; omega)
    · exact absurd h (by have := one_le_sizeOfEL l; omega)
  | succ fuel ih =>
    obtain ⟨ihv, ihf, ihe, ihm⟩ := ih
    refine ⟨fun v h => ?_, fun l h => ?_, fun l h => ?_, fun l h => ?_⟩
    · cases v with
      | Term t => rw [sortMapsFuel, sort_maps_term]
      | Struct n fs =>
        rw [sortMapsFuel, sort_maps_struct, ihf fs (by simp at h; omega)]
      | Set l =>
        rw [sortMapsFuel, sort_maps_set, ihe (l.sort_by Value.cmp)
          (by rw [sizeOf_sort_byV]; simp at h; omega)]
      | Map es =>
        rw [sortMapsFuel, sort_maps_map, ihm (es.sort_by fun a b => a.key.cmp b.key)
          (by rw [sizeOf_sort_byE]; simp at h; omega)]
      | List l =>
        rw [sortMapsFuel, sort_maps_list, ihe (l.sort_by Value.cmp)
          (by rw [sizeOf_sort_byV]; simp at h; omega)]
      | Tuple l =>
        rw [sortMapsFuel, sort_maps_tuple, ihe (l.sort_by Value.cmp)
          (by rw [sizeOf_sort_byV]; simp at h; omega)]
    · cases l with
      | nil => rw [sortMapsFieldsFuel, sortMapsFields]
      | cons e l =>
        cases e with
        | Value i v =>
          rw [sortMapsFieldsFuel, sortMapsFields, ihv v (by simp at h; omega),
            ihf l (by simp at h; omega)]
        | NonExhaustive =>
          rw [sortMapsFieldsFuel, sortMapsFields, ihf l (by simp at h; omega)]
    · cases l with
      | nil => rw [sortMapsEachFuel, sortMapsEach]
      | cons v l =>
        rw [sortMapsEachFuel, sortMapsEach, ihv v (by simp at h; omega),
          ihe l (by simp at h; omega)]
    · cases l with
      | nil => rw [sortMapsEntriesFuel, sortMapsEntries]
      | cons e l =>
        cases e with
        | mk k v =>
          rw [sortMapsEntriesFuel, sortMapsEntries, ihv k (by simp at h; omega),
            ihv v (by simp at h; omega), ihm l (by simp at h; omega)]

theorem sortMapsFuel_spec (fuel : Nat) (v : Value) (h : sizeOf v ≤ fuel) :
    sortMapsFuel fuel v = sort_maps v :=
  (sortMapsFuel_spec_all fuel).1 v h

mutual

/-- The hypothesis of the order-invariance claim, read off the spec: two
trees hold the same logical entries in their unordered containers, with
those entries possibly listed in different orders at any depth — identical
Terms, Structs with the same name and pointwise logically equal field
values, and Set/List/Tuple/Map bodies that are permutations up to this
same logical equality. -/
inductive LogicalEq : Value → Value → Prop where
  | term (t : String) : LogicalEq (.Term t) (.Term t)
  | struct (n : String) (fa fb : FieldList) :
      LogicalEqFields fa fb → LogicalEq (.Struct n fa) (.Struct n fb)
  | set (la lb : ValueList) : LogicalEqPerm la lb → LogicalEq (.Set la) (.Set lb)
  | list (la lb : ValueList) : LogicalEqPerm la lb → LogicalEq (.List la) (.List lb)
  | tuple (la lb : ValueList) : LogicalEqPerm la lb → LogicalEq (.Tuple la) (.Tuple lb)
  | map (ma mb : EntryList) : LogicalEqPermE ma mb → LogicalEq (.Map ma) (.Map mb)

/-- Pointwise logical equality of Struct field lists: labels, order and
marker positions coincide, values are logically equal. -/
inductive LogicalEqFields : FieldList → FieldList → Prop where
  | nil : LogicalEqFields .nil .nil
  | consValue (i : String) (va vb : Value) (la lb : FieldList) :
      LogicalEq va vb → LogicalEqFields la lb →
      LogicalEqFields (.cons (.Value i va) la) (.cons (.Value i vb) lb)
  | consMarker (la lb : FieldList) :
      LogicalEqFields la lb →
      LogicalEqFields (.cons .NonExhaustive la) (.cons .NonExhaustive lb)

/-- Permutation of element sequences up to logical equality. -/
inductive LogicalEqPerm : ValueList → ValueList → Prop where
  | nil : LogicalEqPerm .nil .nil
  | cons (a b : Value) (la lb : ValueList) :
      LogicalEq a b → LogicalEqPerm la lb → LogicalEqPerm (.cons a la) (.cons b lb)
  | swap (a b : Value) (l : ValueList) :
      LogicalEqPerm (.cons a (.cons b l)) (.cons b (.cons a l))
  | trans (la lb lc : ValueList) :
      LogicalEqPerm la lb → LogicalEqPerm lb lc → LogicalEqPerm la lc

/-- Permutation of Map entry sequences up to logical equality of keys and
values. -/
inductive LogicalEqPermE : EntryList → EntryList → Prop where
  | nil : LogicalEqPermE .nil .nil
  | cons (ka kb va vb : Value) (la lb : EntryList) :
      LogicalEq ka kb → LogicalEq va vb → LogicalEqPermE la lb →
      LogicalEqPermE (.cons (.mk ka va) la) (.cons (.mk kb vb) lb)
  | swap (a b : KeyValue) (l : EntryList) :
      LogicalEqPermE (.cons a (.cons b l)) (.cons b (.cons a l))
  | trans (la lb lc : EntryList) :
      LogicalEqPermE la lb → LogicalEqPermE lb lc → LogicalEqPermE la lc

end

mutual

/-- The order-invariance hypothesis restricted to pure reorderings: the
contents of every reordered unordered container are moved as whole,
structurally identical subtrees (a permutation of equal entries), a Map's
entries additionally have pairwise distinct keys, and deeper differences
of order are reached only through Struct field values. -/
inductive ReorderEq : Value → Value → Prop where
  | term (t : String) : ReorderEq (.Term t) (.Term t)
  | struct (n : String) (fa fb : FieldList) :
      ReorderEqFields fa fb → ReorderEq (.Struct n fa) (.Struct n fb)
  | set (la lb : ValueList) : la.toList.Perm lb.toList → ReorderEq (.Set la) (.Set lb)
  | list (la lb : ValueList) : la.toList.Perm lb.toList → ReorderEq (.List la) (.List lb)
  | tuple (la lb : ValueList) : la.toList.Perm lb.toList → ReorderEq (.Tuple la) (.Tuple lb)
  | map (ma mb : EntryList) : ma.toList.Perm mb.toList →
      (ma.toList.map KeyValue.key).Nodup → ReorderEq (.Map ma) (.Map mb)

/-- Pointwise version of `ReorderEq` on Struct field lists. -/
inductive ReorderEqFields : FieldList → FieldList → Prop where
  | nil : ReorderEqFields .nil .nil
  | consValue (i : String) (va vb : Value) (la lb : FieldList) :
      ReorderEq va vb → ReorderEqFields la lb →
      ReorderEqFields (.cons (.Value i va) la) (.cons (.Value i vb) lb)
  | consMarker (la lb : FieldList) :
      ReorderEqFields la lb →
      ReorderEqFields (.cons .NonExhaustive la) (.cons .NonExhaustive lb)

end

mutual

theorem sort_maps_eq_of_reorderEq : ∀ (a b : Value), ReorderEq a b →
    sort_maps a = sort_maps b
  | _, _, .term t => rfl
  | _, _, .struct n fa fb hf => by
    rw [sort_maps_struct, sort_maps_struct, sortMapsFields_eq_of_reorderEqFields fa fb hf]
  | _, _, .set la lb hp => by
    rw [sort_maps_set, sort_maps_set, sort_by_eq_of_permV hp]
  | _, _, .list la lb hp => by
    rw [sort_maps_list, sort_maps_list, sort_by_eq_of_permV hp]
  | _, _, .tuple la lb hp => by
    rw [sort_maps_tuple, sort_maps_tuple, sort_by_eq_of_permV hp]
  | _, _, .map ma mb hp hnd => by
    rw [sort_maps_map, sort_maps_map, sort_by_eq_of_perm_nodupE hp hnd]
  termination_by a => sizeOf a

theorem sortMapsFields_eq_of_reorderEqFields : ∀ (fa fb : FieldList), ReorderEqFields fa fb →
    sortMapsFields fa = sortMapsFields fb
  | _, _, .nil => rfl
  | _, _, .consValue i va vb la lb hv hl => by
    rw [sortMapsFields, sortMapsFields, sort_maps_eq_of_reorderEq va vb hv,
      sortMapsFields_eq_of_reorderEqFields la lb hl]
  | _, _, .consMarker la lb hl => by
    rw [sortMapsFields, sortMapsFields, sortMapsFields_eq_of_reorderEqFields la lb hl]
  termination_by fa => sizeOf fa

end

instance : DecidableEq Value := fun a b =>
  decidable_of_iff (Value.cmp a b = .eq) (valueCmp_eq_iff a b)

instance : DecidableEq ValueList := fun a b =>
  decidable_of_iff (ValueList.cmp a b = .eq) (valueListCmp_eq_iff a b)

instance : DecidableEq FieldList := fun a b =>
  decidable_of_iff (FieldList.cmp a b = .eq) (fieldListCmp_eq_iff a b)

instance : DecidableEq OrNonExhaustive := fun a b =>
  decidable_of_iff (OrNonExhaustive.cmp a b = .eq) (orNonExhaustiveCmp_eq_iff a b)

instance : DecidableEq EntryList := fun a b =>
  decidable_of_iff (EntryList.cmp a b = .eq) (entryListCmp_eq_iff a b)

instance : DecidableEq KeyValue := fun a b =>
  decidable_of_iff (KeyValue.cmp a b = .eq) (keyValueCmp_eq_iff a b)

/-- Replacement of every entry's value in a Map body, keys untouched; used
to state that the value side of an entry never influences the entry
order. -/
def EntryList.mapValues (f : Value → Value) : EntryList → EntryList
  | .nil => .nil
  | .cons (.mk k v) l => .cons (.mk k (f v)) (EntryList.mapValues f l)

theorem mapValues_orderedInsertBy (f : Value → Value) (k v : Value) :
    ∀ l : EntryList,
      EntryList.orderedInsertBy (fun a b => a.key.cmp b.key) (.mk k (f v))
          (EntryList.mapValues f l) =
        EntryList.mapValues f
          (EntryList.orderedInsertBy (fun a b => a.key.cmp b.key) (.mk k v) l)
  | .nil => rfl
  | .cons (.mk k₂ v₂) l => by
    simp only [EntryList.mapValues, EntryList.orderedInsertBy]
    have hkey : ∀ x y xv yv : Value,
        (KeyValue.mk x xv).key.cmp (KeyValue.mk y yv).key = x.cmp y := fun _ _ _ _ => rfl
    simp only [hkey]
    by_cases h : Value.cmp k k₂ = .gt
    · rw [if_pos h, if_pos h, mapValues_orderedInsertBy f k v l]
      simp [EntryList.mapValues]
    · rw [if_neg h, if_neg h]
      simp [EntryList.mapValues]

theorem mapValues_sort_by (f : Value → Value) :
    ∀ l : EntryList,
      (EntryList.mapValues f l).sort_by (fun a b => a.key.cmp b.key) =
        EntryList.mapValues f (l.sort_by fun a b => a.key.cmp b.key)
  | .nil => rfl
  | .cons (.mk k v) l => by
    simp only [EntryList.mapValues, EntryList.sort_by]
    rw [mapValues_sort_by f l, mapValues_orderedInsertBy]

/-- The visible label of a Struct field entry: its identifier, or none for
the open marker. -/
def OrNonExhaustive.label : OrNonExhaustive → Option String
  | .Value i _ => some i
  | .NonExhaustive => none

theorem label_normalize (e : OrNonExhaustive) :
    (OrNonExhaustive.normalize e).label = e.label := by
  cases e <;> rfl

theorem sortMapsFields_labels (fs : FieldList) :
    (sortMapsFields fs).toList.map OrNonExhaustive.label =
      fs.toList.map OrNonExhaustive.label := by
  rw [sortMapsFields_toList, List.map_map]
  exact List.map_congr_left fun e _ => label_normalize e

/-- Marker-substring detector used to state when the post-processing
replacement leaves a rendering unchanged. -/
def containsMarker : List Char → Bool
  | '{' :: ' ' :: '.' :: '.' :: ' ' :: '}' :: _ => true
  | _ :: rest => containsMarker rest
  | [] => false

theorem replaceMarker_of_not_contains : ∀ l : List Char, containsMarker l = false →
    replaceMarker l = l
  | [], _ => rfl
  | '{' :: ' ' :: '.' :: '.' :: ' ' :: '}' :: rest, h => by
    simp [containsMarker] at h
  | c :: rest, h => by
    have hside : ∀ (tail : List Char), c = '{' →
        rest = ' ' :: '.' :: '.' :: ' ' :: '}' :: tail → False := by
      intro tail hc hr
      subst hc
      subst hr
      simp [containsMarker] at h
    have h' : containsMarker rest = false := by
      rw [containsMarker] at h
      · exact h
      · exact hside
    rw [replaceMarker, replaceMarker_of_not_contains rest h']
    exact hside

/-- A list whose unordered containers are nested: the deeper reorder makes
one application of the engine non-idempotent. -/
def exNested : Value :=
  .List (.cons (.List (.cons (.Term "2") (.cons (.Term "1") .nil)))
    (.cons (.List (.cons (.Term "1") (.cons (.Term "5") .nil))) .nil))

/-- The same logical tree as `exNested` with the deeper list already in
sorted order. -/
def exNestedReordered : Value :=
  .List (.cons (.List (.cons (.Term "1") (.cons (.Term "2") .nil)))
    (.cons (.List (.cons (.Term "1") (.cons (.Term "5") .nil))) .nil))

/-- C1 counterexample: the Canonical Ordering Engine is not idempotent.  It
sorts a container before recursing into its elements, so the recursion can
un-sort the container: on `exNested` a second application changes both the
tree and its rendered text. -/
theorem sort_maps_not_idempotent :
    sort_maps (sort_maps exNested) ≠ sort_maps exNested ∧
    render 0 (sort_maps (sort_maps exNested)) ≠ render 0 (sort_maps exNested) := by
  rw [← sortMapsFuel_spec 10000 exNested (by decide)]
  rw [← sortMapsFuel_spec 10000 (sortMapsFuel 10000 exNested) (by decide)]
  exact ⟨by decide, by decide⟩

/-- C1 (amended): normalization reaches a fixed point after finitely many
applications of `sort_maps` — from that point on a further application
changes neither the tree nor its rendered string — but a single
application need not be a fixed point (see the counterexample). -/
theorem sort_maps_eventually_idempotent :
    ∀ v : Value, ∃ n, sort_maps (sortMapsIter n v) = sortMapsIter n v ∧
      render 0 (sort_maps (sortMapsIter n v)) = render 0 (sortMapsIter n v) := by
  intro v
  obtain ⟨n, hn⟩ := eventually_normal v
  exact ⟨n, hn, by rw [hn]⟩

/-- C2 counterexample: two trees whose unordered containers hold the same
logical entries in different orders (`LogicalEq`) can normalize to
different rendered strings, so the Sorted-Equality Assertion fails on a
logically equal pair: the outer list of `exNested` is sorted by the
pre-normalization order of its elements, and the deeper reorder flips that
order relative to `exNestedReordered`. -/
theorem order_invariance_fails_for_nested_reorder :
    LogicalEq exNested exNestedReordered ∧
    ¬ assert_eq_sorted_succeeds exNested exNestedReordered := by
  constructor
  · exact .list _ _ (.cons _ _ _ _ (.list _ _ (.swap _ _ _))
      (.cons _ _ _ _ (.list _ _ (.cons _ _ _ _ (.term _)
        (.cons _ _ _ _ (.term _) .nil))) .nil))
  · simp only [assert_eq_sorted_succeeds, sorted_debug]
    rw [← sortMapsFuel_spec 10000 exNested (by decide),
      ← sortMapsFuel_spec 10000 exNestedReordered (by decide)]
    decide

/-- C2 (amended): the normalized tree, the rendered string and the
Sorted-Equality Assertion are invariant under reorderings of unordered
containers whose entries are moved as whole, structurally identical
subtrees (Map entries additionally with pairwise distinct keys), with
deeper reorders reached through Struct fields — the `ReorderEq`
relation. -/
theorem sorted_output_reorder_invariant :
    ∀ a b : Value, ReorderEq a b →
      sort_maps a = sort_maps b ∧ sorted_debug a = sorted_debug b ∧
        assert_eq_sorted_succeeds a b := by
  intro a b h
  have h1 := sort_maps_eq_of_reorderEq a b h
  refine ⟨h1, ?_, ?_⟩ <;> simp [sorted_debug, assert_eq_sorted_succeeds, h1]

/-- Witness for the amended order-invariance theorem: a two-element Set
built in the two insertion orders. -/
theorem sorted_output_reorder_invariant_witness :
    ReorderEq (.Set (.cons (.Term "2") (.cons (.Term "1") .nil)))
        (.Set (.cons (.Term "1") (.cons (.Term "2") .nil))) ∧
      sort_maps (.Set (.cons (.Term "2") (.cons (.Term "1") .nil))) =
        sort_maps (.Set (.cons (.Term "1") (.cons (.Term "2") .nil))) := by
  have hrel : ReorderEq (.Set (.cons (.Term "2") (.cons (.Term "1") .nil)))
      (.Set (.cons (.Term "1") (.cons (.Term "2") .nil))) :=
    .set _ _ (List.Perm.swap _ _ _)
  exact ⟨hrel, (sorted_output_reorder_invariant _ _ hrel).1⟩

/-- C3: the Map branch sorts entries by comparing only their key Values
under the recursive structural order — replacing every entry's value
commutes with the sort, so the value side never influences entry order —
sorts the entries first, and then recursively normalizes each entry's key
and value. -/
theorem map_entries_sorted_by_key_only :
    (∀ es : EntryList, sort_maps (.Map es) =
        .Map (sortMapsEntries (es.sort_by fun a b => a.key.cmp b.key))) ∧
    (∀ (f : Value → Value) (es : EntryList),
        (EntryList.mapValues f es).sort_by (fun a b => a.key.cmp b.key) =
          EntryList.mapValues f (es.sort_by fun a b => a.key.cmp b.key)) ∧
    (∀ es : EntryList, (sortMapsEntries es).toList = es.toList.map KeyValue.normalize) :=
  ⟨sort_maps_map, mapValues_sort_by, sortMapsEntries_toList⟩

/-- A Term whose literal text contains the open-marker character
sequence, as a parsed string literal would. -/
def markerTerm : Value := .Term "\"\x7b .. \x7d\""

/-- C4 counterexample: the rewrite is a global textual replacement, so it
also alters text that is not an open-record marker: a string-literal Term
containing the marker substring is clobbered even though the tree holds no
open Struct at all. -/
theorem marker_rewrite_alters_literal_text :
    sort_maps markerTerm = markerTerm ∧
    replaceMarkerStr (render 0 markerTerm) ≠ render 0 markerTerm ∧
    sorted_debug markerTerm = "\"\x7b\n\x7d\"" := by
  refine ⟨sort_maps_term _, by decide, ?_⟩
  simp only [sorted_debug, markerTerm, sort_maps_term]
  decide

/-- C4 (amended): the rewrite replaces every occurrence of the six
character open-marker substring in the rendered text.  For open-record
markers this gives exactly the claimed behaviour — a marker-only Struct
renders compactly and becomes the empty multi-line body, a Struct with
fields alongside the marker renders multi-line with no compact marker
substring and is left untouched — and any rendering without the marker
substring is unchanged; but text inside string literals is not exempt
(see the counterexample). -/
theorem marker_rewrite_global_replace :
    sorted_debug (.Struct "Foo" (.cons .NonExhaustive .nil)) = "Foo \x7b\n\x7d" ∧
    sorted_debug (.Struct "Foo" (.cons (.Value "value" (.Term "10.0"))
      (.cons .NonExhaustive .nil))) = "Foo \x7b\n    value: 10.0,\n    ..\n\x7d" ∧
    (∀ l : List Char, containsMarker l = false → replaceMarker l = l) := by
  refine ⟨?_, ?_, replaceMarker_of_not_contains⟩
  · rw [sorted_debug, ← sortMapsFuel_spec 10000 _ (by decide)]
    decide
  · rw [sorted_debug, ← sortMapsFuel_spec 10000 _ (by decide)]
    decide

/-- Witness for the global-replace theorem at a concrete marker-free
text. -/
theorem marker_rewrite_global_replace_witness :
    containsMarker "abc".data = false ∧ replaceMarker "abc".data = "abc".data :=
  ⟨by decide, marker_rewrite_global_replace.2.2 "abc".data (by decide)⟩

/-- C5: a parse failure of either operand's Debug text aborts the sorted
formatting fatally with the message that surfaces the parser diagnostic
and directs the caller to the unsorted `assert_eq!`; no output string is
ever produced from an unparseable rendering. -/
theorem parse_failure_is_fatal :
    ∀ err : String,
      SortedDebug.fmt (.error err) =
        .error ("Failed to parse Debug output for sorting (please use `assert_eq!` instead and/or file an issue for your use-case)!\nError: " ++ err) ∧
      ∀ s : String, SortedDebug.fmt (.error err) ≠ .ok s := by
  intro err
  refine ⟨rfl, fun s h => ?_⟩
  simp [SortedDebug.fmt] at h

/-- C6: the Set, List and Tuple branches sort the element sequence with
the structural total order — the output is a sorted permutation of the
input — and then recursively normalize each repositioned element; Tuples
are sorted exactly like the unordered Set and List despite their
positional semantics. -/
theorem unordered_sequences_sorted_then_recursed :
    (∀ l : ValueList, sort_maps (.Set l) = .Set (sortMapsEach (l.sort_by Value.cmp))) ∧
    (∀ l : ValueList, sort_maps (.List l) = .List (sortMapsEach (l.sort_by Value.cmp))) ∧
    (∀ l : ValueList, sort_maps (.Tuple l) = .Tuple (sortMapsEach (l.sort_by Value.cmp))) ∧
    (∀ l : ValueList, List.Sorted (leOfCmp Value.cmp) (l.sort_by Value.cmp).toList) ∧
    (∀ l : ValueList, (l.sort_by Value.cmp).toList.Perm l.toList) ∧
    (∀ l : ValueList, (sortMapsEach l).toList = l.toList.map sort_maps) :=
  ⟨sort_maps_set, sort_maps_list, sort_maps_tuple, sort_by_sortedV,
    sort_by_permV Value.cmp, sortMapsEach_toList⟩

/-- A one-field record rendering `Foo` with the given literal value, as in
the crate's list-sorting tests. -/
def fooOf (x : String) : Value :=
  .Struct "Foo" (.cons (.Value "value" (.Term x)) .nil)

/-- C7: Terms are ordered by the lexicographic comparison of their literal
text, not numerically: the literal 10.1 sorts before 2.0, and the list of
Foo records built in order 10.1, 2.0, -1.5 normalizes to the element
order -1.5, 10.1, 2.0. -/
theorem term_order_is_textual_not_numeric :
    Value.cmp (.Term "10.1") (.Term "2.0") = .lt ∧
    Value.cmp (.Term "-1.5") (.Term "10.1") = .lt ∧
    sort_maps (.List (.cons (fooOf "10.1") (.cons (fooOf "2.0") (.cons (fooOf "-1.5") .nil)))) =
      .List (.cons (fooOf "-1.5") (.cons (fooOf "10.1") (.cons (fooOf "2.0") .nil))) := by
  refine ⟨by decide, by decide, ?_⟩
  rw [← sortMapsFuel_spec 10000 _ (by decide)]
  decide

/-- C8: the Struct branch never changes the field sequence: the output
fields are the pointwise normalizations of the input fields in the same
positions, every label and marker position is preserved exactly, the open
marker is left untouched, and only labelled field values are recursed
into. -/
theorem struct_fields_order_preserved :
    (∀ (n : String) (fs : FieldList),
        sort_maps (.Struct n fs) = .Struct n (sortMapsFields fs)) ∧
    (∀ fs : FieldList, (sortMapsFields fs).toList = fs.toList.map OrNonExhaustive.normalize) ∧
    (∀ fs : FieldList, (sortMapsFields fs).toList.map OrNonExhaustive.label =
        fs.toList.map OrNonExhaustive.label) ∧
    (∀ (i : String) (v : Value),
        OrNonExhaustive.normalize (.Value i v) = .Value i (sort_maps v)) ∧
    OrNonExhaustive.normalize .NonExhaustive = .NonExhaustive :=
  ⟨sort_maps_struct, sortMapsFields_toList, sortMapsFields_labels, fun _ _ => rfl, rfl⟩

/-- C9: the Ordering Engine is total and its work is bounded by the size
of its input: the fuel-indexed evaluator, which performs at most `fuel`
recursion steps, already computes `sort_maps` whenever the fuel is at
least the size of the input tree. -/
theorem sort_maps_total_bounded_work :
    ∀ (v : Value) (fuel : Nat), sizeOf v ≤ fuel → sortMapsFuel fuel v = sort_maps v :=
  fun v fuel h => sortMapsFuel_spec fuel v h

/-- Witness for the bounded-work theorem at a concrete tree and fuel. -/
theorem sort_maps_total_bounded_work_witness :
    sizeOf (Value.Term "2") ≤ 300 ∧
      sortMapsFuel 300 (.Term "2") = sort_maps (.Term "2") :=
  ⟨by decide, sort_maps_total_bounded_work (.Term "2") 300 (by decide)⟩

/-- C10: normalization preserves content: each sorted Set/List/Tuple body
is a permutation of the normalizations of its original elements, each Map
body is a permutation of the normalizations of its original entries, each
Struct keeps exactly its original labels and marker positions in order,
and a Term's literal text is unchanged. -/
theorem normalization_content_preserving :
    (∀ l : ValueList, (sortMapsEach (l.sort_by Value.cmp)).toList.Perm
        (l.toList.map sort_maps)) ∧
    (∀ es : EntryList, (sortMapsEntries (es.sort_by fun a b => a.key.cmp b.key)).toList.Perm
        (es.toList.map KeyValue.normalize)) ∧
    (∀ fs : FieldList, (sortMapsFields fs).toList.map OrNonExhaustive.label =
        fs.toList.map OrNonExhaustive.label) ∧
    (∀ t : String, sort_maps (.Term t) = .Term t) := by
  refine ⟨fun l => ?_, fun es => ?_, sortMapsFields_labels, sort_maps_term⟩
  · rw [sortMapsEach_toList]
    exact (sort_by_permV Value.cmp l).map sort_maps
  · rw [sortMapsEntries_toList]
    exact (sort_by_permE _ es).map KeyValue.normalize
